import Mathlib

/-!
Verification of the block-aware finite-element assembly core
(`cpp/dolfin/fem/Assembler.cpp`), the multi-point-constraint cell
classifier (`MultiPointConstraint::cell_classification`) and the
`NonlinearProblem` deprecation sentinel (`dolfin/nls/NonlinearProblem.h`)
against their natural-language specification.

The C++ code is shallowly embedded: global PETSc matrices and vectors
become total functions `Nat → Nat → Int` and `Nat → Int` (the claims under
scrutiny are structural, about which entries are zeroed, overwritten or
added to, so exact-arithmetic scalars are adequate), the cell loops
become folds over explicit cell lists, and the PETSc insertion/flush
calls of the matrix path are additionally mirrored by an event trace so
that ordering claims can be stated.
-/

/-! ## Basic containers -/

/-- A global (or block-local) matrix, indexed by process-local row and
column indices, as mutated through `add_local`/`set_local`. -/
abbrev Mat : Type := Nat → Nat → Int

/-- A global (or block-local) vector indexed by process-local indices. -/
abbrev Vec : Type := Nat → Int

/-- The all-zero matrix (fresh PETSc matrix contents). -/
def zeroMat : Mat := fun _ _ => 0

/-- The all-zero vector (fresh PETSc vector contents, `b_vec.setZero()`). -/
def zeroVec : Vec := fun _ => 0

/-- Add `v` into entry `(r, c)` (one scalar of a `MatSetValuesLocal` with
`ADD_VALUES`). -/
def matAddAt (A : Mat) (r c : Nat) (v : Int) : Mat :=
  fun r' c' => if r' = r ∧ c' = c then A r' c' + v else A r' c'

/-- Overwrite entry `(r, c)` with `v` (one scalar of `set_local`). -/
def matSetAt (A : Mat) (r c : Nat) (v : Int) : Mat :=
  fun r' c' => if r' = r ∧ c' = c then v else A r' c'

/-- Add `v` into entry `d` of a vector. -/
def vecAddAt (b : Vec) (d : Nat) (v : Int) : Vec :=
  fun d' => if d' = d then b d' + v else b d'

/-- Overwrite entry `d` of a vector with `v`. -/
def vecSetAt (b : Vec) (d : Nat) (v : Int) : Vec :=
  fun d' => if d' = d then v else b d'

/-! ## Boundary-value maps (`DirichletBC::Map`)

A gathered boundary-value map is an association list from global dof
index to prescribed value.  Each individual `DirichletBC` contributes
such a map; `Assembler` merges the maps of all applicable conditions
into one map per function-space axis. -/

/-- An association list from global dof index to prescribed value. -/
abbrev BCMap : Type := List (Nat × Int)

/-- `std::map::find`: the value stored for dof `d`, if any. -/
def bcFind (bv : BCMap) (d : Nat) : Option Int :=
  (List.find? (fun p => p.1 == d) bv).map (fun p => p.2)

/-- Whether dof `d` is present in the boundary-value map
(`boundary_values.find(ii) != boundary_values.end()`). -/
def bcHas (bv : BCMap) (d : Nat) : Bool :=
  (bcFind bv d).isSome

/-- Modelled from the spec: one key-overwriting insertion into a
boundary-value map.  `DirichletBC::get_boundary_values` is not part of
the source corpus (only its call sites are); §4.1 of the spec states
that merging a condition's `(dof → value)` pairs is last-write-wins on
duplicate keys, which this insertion realises while keeping keys
unique. -/
def bcInsert (bv : BCMap) (d : Nat) (v : Int) : BCMap :=
  List.filter (fun p => p.1 != d) bv ++ [(d, v)]

/-- Modelled from the spec: merge the (already gathered) maps of every
applicable `DirichletBC`, in input-list order, last-write-wins on
duplicate keys (spec §4.1).  This is the `boundary_values` map the
assembler loops build by repeated `get_boundary_values`/`gather`. -/
def mergeBoundaryValues (bcs : List BCMap) : BCMap :=
  bcs.foldl (fun acc bc => bc.foldl (fun a p => bcInsert a p.1 p.2) acc) []

/-- The value that survives for dof `d` when the pair lists are written
in order, later writes winning: the reference for the last-write-wins
conflict-resolution claim. -/
def lastPrescribedValue (pairs : List (Nat × Int)) (d : Nat) : Option Int :=
  pairs.foldl (fun acc p => if p.1 == d then some p.2 else acc) none

/-! ## Single-form matrix assembly
(`Assembler::assemble(la::PETScMatrix&, const Form&, bcs)`, lines
449–596, and the single-block branch of
`Assembler::assemble(la::PETScMatrix&, BlockType)`, lines 237–273). -/

/-- One mesh cell as the matrix-assembly loop sees it: the test-space
and trial-space cell-to-global dof lists delivered by
`GenericDofMap::cell_dofs`, and the tabulated dense element matrix
(`a.tabulate_tensor`) by local index. -/
structure MatCell where
  dofs0 : List Nat
  dofs1 : List Nat
  tab : Nat → Nat → Int

/-- The element matrix after the row-zeroing loop (lines 527–533):
row `i` is zeroed when the global test dof `dmap0[i]` carries a
boundary value. -/
def zeroBcRows (c : MatCell) (bv0 : BCMap) : Nat → Nat → Int :=
  fun i j => if bcHas bv0 (c.dofs0.getD i 0) then 0 else c.tab i j

/-- The element matrix after the row- and column-zeroing loops (lines
527–541): additionally column `j` is zeroed when the global trial dof
`dmap1[j]` carries a boundary value. -/
def zeroBcRowsCols (c : MatCell) (bv0 bv1 : BCMap) : Nat → Nat → Int :=
  fun i j => if bcHas bv1 (c.dofs1.getD j 0) then 0 else zeroBcRows c bv0 i j

/-- `A.add_local(Ae.data(), dmap0.size(), dmap0.data(), dmap1.size(),
dmap1.data())`: additive insertion of a dense local matrix at the
cell's global dof positions. -/
def addLocalMat (A : Mat) (d0 d1 : List Nat) (Ae : Nat → Nat → Int) : Mat :=
  (List.range d0.length).foldl
    (fun Ai i =>
      (List.range d1.length).foldl
        (fun Aij j => matAddAt Aij (d0.getD i 0) (d1.getD j 0) (Ae i j)) Ai)
    A

/-- The cell iteration of `Assembler::assemble(A, a, bcs)` (lines
503–565): per cell, tabulate the element matrix, zero boundary rows and
columns, insert additively. -/
def assembleMatForm (A : Mat) (cells : List MatCell) (bv0 bv1 : BCMap) : Mat :=
  cells.foldl
    (fun Acc c => addLocalMat Acc c.dofs0 c.dofs1 (zeroBcRowsCols c bv0 bv1)) A

/-- Insert a unit value on the diagonal for every entry of the
boundary-value map, by `set_local` (the loop at lines 265–271 — note:
no ownership test on `row`). -/
def setUnitDiagonal (A : Mat) (bv : BCMap) : Mat :=
  bv.foldl (fun Acc p => matSetAt Acc p.1 p.1 1) A

/-- The single-block branch of `Assembler::assemble(A, BlockType)`
(lines 237–273): assemble the one form, then — when test space equals
trial space — place `1` on the diagonal of every dof of the merged,
gathered boundary-value map.  `bcs0`/`bcs1` are the per-condition
gathered maps applicable to the test/trial space. -/
def assembleMatSingle (A : Mat) (cells : List MatCell) (bcs0 bcs1 : List BCMap)
    (spacesEq : Bool) : Mat :=
  let A1 := assembleMatForm A cells (mergeBoundaryValues bcs0)
      (mergeBoundaryValues bcs1)
  if spacesEq then setUnitDiagonal A1 (mergeBoundaryValues bcs0) else A1

/-- Claim C1 as stated, at one configuration: the single-block path may
change a diagonal entry (relative to the state after the cell
iteration) only at a boundary dof the calling rank owns, ownership
being `d < ownedSize` (owned indices precede ghost indices in the
process-local numbering). -/
def singleDiagOwnedOnly (A : Mat) (cells : List MatCell)
    (bcs0 bcs1 : List BCMap) (ownedSize : Nat) : Prop :=
  ∀ d : Nat,
    assembleMatSingle A cells bcs0 bcs1 true d d
        ≠ assembleMatForm A cells (mergeBoundaryValues bcs0)
            (mergeBoundaryValues bcs1) d d
      → d < ownedSize

/-! ## Vector assembly
(`Assembler::assemble(la::PETScVector&, BlockType)`, lines 278–436, the
per-form cell loop at lines 615–658, and `Assembler::set_bc`, lines
768–799). -/

/-- One mesh cell as the vector-assembly loop sees it: the cell-to-global
dof list and the tabulated dense element vector. -/
structure VecCell where
  dofs : List Nat
  tab : Nat → Int

/-- The accumulation loop `b[dmap[i]] += be[i]` (lines 655–656). -/
def addLocalVec (b : Vec) (dofs : List Nat) (be : Nat → Int) : Vec :=
  (List.range dofs.length).foldl
    (fun acc i => vecAddAt acc (dofs.getD i 0) (be i)) b

/-- The cell iteration of `Assembler::assemble(b, L)` (lines 615–658)
over a ghost-inclusive local buffer. -/
def assembleVecForm (b : Vec) (cells : List VecCell) : Vec :=
  cells.foldl (fun acc c => addLocalVec acc c.dofs c.tab) b

/-- `VecGhostUpdate(…, ADD_VALUES, SCATTER_REVERSE)`: every owned entry
receives, additively, the contributions accumulated for it in the ghost
segments of the other ranks (`incoming`); entries beyond the owned
segment are left as communication scratch. -/
def ghostReduce (b : Vec) (ownedSize : Nat) (incoming : Nat → Int) : Vec :=
  fun d => if d < ownedSize then b d + incoming d else b d

/-- `Assembler::set_bc` (lines 768–799) acting on an owned-segment view
of length `size` that starts at `offset` inside the full array: for
every entry of the merged boundary-value map whose dof is inside the
view, overwrite (`b[bc.first] = bc.second`). -/
def setBcAt (b : Vec) (offset size : Nat) (bcs : List BCMap) : Vec :=
  (mergeBoundaryValues bcs).foldl
    (fun acc p => if p.1 < size then vecSetAt acc (offset + p.1) p.2 else acc) b

/-- `Assembler::set_bc` on a view that starts at the beginning of the
array (the single and nested vector branches). -/
def set_bc (b : Vec) (size : Nat) (bcs : List BCMap) : Vec :=
  setBcAt b 0 size bcs

/-- The single-block vector branch (lines 412–435): assemble into the
ghost-inclusive local form, reduce ghost contributions onto the owning
ranks, then overwrite the prescribed entries of the owned segment. -/
def assembleVecSingle (cells : List VecCell) (ownedSize : Nat)
    (incoming : Nat → Int) (bcs : List BCMap) : Vec :=
  set_bc (ghostReduce (assembleVecForm zeroVec cells) ownedSize incoming)
    ownedSize bcs

/-- One block of a block vector: its cells, the owned and ghost sizes of
its index map, and the gathered boundary-value maps applicable to its
function space. -/
structure VecBlockData where
  cells : List VecCell
  ownedSize : Nat
  ghostSize : Nat
  bcs : List BCMap

/-- The nested (VecNest) vector branch (lines 311–339): each sub-vector
is assembled, ghost-reduced and boundary-overwritten independently. -/
def assembleVecNest (blocks : List VecBlockData) (incoming : Nat → Nat → Int) :
    List Vec :=
  (List.range blocks.length).map fun i =>
    let blk := blocks.getD i ⟨[], 0, 0, []⟩
    set_bc (ghostReduce (assembleVecForm zeroVec blk.cells) blk.ownedSize
        (incoming i))
      blk.ownedSize blk.bcs

/-- Total owned size of a block vector, `Σ` over blocks of
`IndexMap::MapSize::OWNED` (the loop at lines 362–364). -/
def totalOwned (blocks : List VecBlockData) : Nat :=
  (blocks.map (fun blk => blk.ownedSize)).sum

/-- Owned-segment offset of block `i` in the monolithic layout,
`Σ` of the owned sizes of the preceding blocks (lines 365–368). -/
def ownedOffset (blocks : List VecBlockData) (i : Nat) : Nat :=
  ((blocks.take i).map (fun blk => blk.ownedSize)).sum

/-- `values[offset + k] = src[srcBase + k]` for `k < n`: the copy of one
segment of a per-block local buffer into the monolithic array (lines
385–388; note it is an assignment, not an accumulation). -/
def copySegment (b : Vec) (offset : Nat) (src : Nat → Int) (srcBase n : Nat) :
    Vec :=
  (List.range n).foldl (fun acc k => vecSetAt acc (offset + k) (src (srcBase + k))) b

/-- The per-block copy loop of the monolithic vector branch (lines
355–389): each block is assembled into its own zero-initialised local
buffer; its owned part is copied to offset `Σ` preceding owned sizes and
its ghost part to `Σ` all owned sizes `+ Σ` preceding ghost sizes. -/
def monoVecCopyLoop (allOwned : Nat) :
    List VecBlockData → Nat → Nat → Vec → Vec
  | [], _, _, b => b
  | blk :: rest, off0, off1, b =>
      let bvec := assembleVecForm zeroVec blk.cells
      let b1 := copySegment b off0 bvec 0 blk.ownedSize
      let b2 := copySegment b1 (allOwned + off1) bvec blk.ownedSize blk.ghostSize
      monoVecCopyLoop allOwned rest (off0 + blk.ownedSize)
        (off1 + blk.ghostSize) b2

/-- The per-block `set_bc` loop of the monolithic vector branch (lines
397–410): block `i`'s boundary values are written into the owned-segment
view starting at its owned offset. -/
def monoVecSetBcLoop : List VecBlockData → Nat → Vec → Vec
  | [], _, b => b
  | blk :: rest, off, b =>
      monoVecSetBcLoop rest (off + blk.ownedSize) (setBcAt b off blk.ownedSize blk.bcs)

/-- The monolithic block-vector branch (lines 341–411): per-block local
assembly and copy, one ghost reduction of the whole vector, then the
per-block boundary overwrites of the owned segments. -/
def assembleVecMono (blocks : List VecBlockData) (incoming : Nat → Int) : Vec :=
  monoVecSetBcLoop blocks 0
    (ghostReduce (monoVecCopyLoop (totalOwned blocks) blocks 0 0 zeroVec)
      (totalOwned blocks) incoming)

/-! ## `Assembler::apply_bc` (lines 660–766): symmetric elimination of
boundary columns into the right-hand side. -/

/-- A bilinear form for `apply_bc`: number of cells, the test-space
(`function_space(0)`) and trial-space (`function_space(1)`) cell dof
maps, and the tabulated element matrix per cell. -/
structure BcFormData where
  ncells : Nat
  dofmap0 : Nat → List Nat
  dofmap1 : Nat → List Nat
  tab : Nat → Nat → Nat → Int

/-- The column-elimination loop (lines 746–757): starting from the zero
element vector, `be -= Ae.col(j) * g` for every local column `j` whose
global trial dof carries the prescribed value `g`. -/
def eliminatedCols (bv : BCMap) (dmap1 : List Nat) (Ae : Nat → Nat → Int)
    (i : Nat) : Int :=
  (List.range dmap1.length).foldl
    (fun acc j =>
      match bcFind bv (dmap1.getD j 0) with
      | some g => acc - Ae i j * g
      | none => acc)
    0

/-- `Assembler::apply_bc` as written (lines 696–761): per cell, if no
trial dof is prescribed the cell is skipped; otherwise the eliminated
column combination is added into `b` at the positions of `dmap0` —
which the source obtains from `dofmap1` (line 725), the trial-space
dofmap. -/
def apply_bc (b : Vec) (f : BcFormData) (bcs1 : List BCMap) : Vec :=
  let bv := mergeBoundaryValues bcs1
  (List.range f.ncells).foldl
    (fun acc cell =>
      let dmap1 := f.dofmap1 cell
      let hasBc := dmap1.any (fun d => bcHas bv d)
      if hasBc then
        let dmap0 := f.dofmap1 cell
        addLocalVec acc dmap0 (eliminatedCols bv dmap1 (f.tab cell))
      else acc)
    b

/-- Modelled from the spec: the elimination pass as §4.6 and claim C3
describe it, inserting the eliminated contribution at the cell's
test-space (`dofmap0`) positions.  Kept alongside `apply_bc` to exhibit
where the source diverges from the specified behaviour. -/
def apply_bc_specified (b : Vec) (f : BcFormData) (bcs1 : List BCMap) : Vec :=
  let bv := mergeBoundaryValues bcs1
  (List.range f.ncells).foldl
    (fun acc cell =>
      let dmap1 := f.dofmap1 cell
      let hasBc := dmap1.any (fun d => bcHas bv d)
      if hasBc then
        addLocalVec acc (f.dofmap0 cell) (eliminatedCols bv dmap1 (f.tab cell))
      else acc)
    b

/-! ## The matrix-path state machine as an event trace
(`Assembler::assemble(la::PETScMatrix&, BlockType)`, lines 45–276).

Block layout, null-block handling, offset arithmetic and the
flush/finalise discipline are control-flow facts; they are embedded as
the sequence of container operations each branch performs. -/

/-- An index map: owned size and ghost count
(`common::IndexMap::MapSize::OWNED` / `GHOSTS`). -/
structure IdxMap where
  ownedSize : Nat
  ghostSize : Nat
deriving DecidableEq

/-- `size(MapSize::ALL) = owned + ghosts`. -/
def IdxMap.allSize (m : IdxMap) : Nat := m.ownedSize + m.ghostSize

/-- One non-null form block: the index maps of its two function spaces,
whether test space equals trial space, and the dof keys of its merged,
gathered boundary-value map. -/
structure FormBlock where
  map0 : IdxMap
  map1 : IdxMap
  spacesEq : Bool
  bcdofs : List Nat
deriving DecidableEq

/-- Container operations the matrix path performs, in program order. -/
inductive MatEvent where
  /-- The additive cell-loop insertion of block `(i, j)` at the given
  row/column global offsets (`this->assemble(mat, *_a[i][j], bcs)`). -/
  | assembleBlock (i j offRow offCol : Nat)
  /-- `apply(AssemblyType::FLUSH)`. -/
  | flush
  /-- `set_local` of a unit value at diagonal entry `d`. -/
  | setDiag (d : Nat)
  /-- `add_local` of a unit value at diagonal entry `d`. -/
  | addDiag (d : Nat)
  /-- `apply(AssemblyType::FINAL)`. -/
  | finalApply
deriving DecidableEq

/-- The events of one block of the nested (MATNEST) branch (lines
79–129): a null block produces nothing; a non-null block is assembled
with block-local indices, flushed, and — when its spaces coincide —
receives unit diagonals by `set_local` for every boundary dof, with no
ownership test. -/
def nestedBlockEvents (i j : Nat) : Option FormBlock → List MatEvent
  | some blk =>
      [MatEvent.assembleBlock i j 0 0, MatEvent.flush]
        ++ (if blk.spacesEq then blk.bcdofs.map MatEvent.setDiag else [])
  | none => []

/-- The inner (column) loop of the nested branch. -/
def nestedRowEvents (i : Nat) : List (Option FormBlock) → Nat → List MatEvent
  | [], _ => []
  | blk? :: rest, j => nestedBlockEvents i j blk? ++ nestedRowEvents i rest (j + 1)

/-- The outer (row) loop of the nested branch. -/
def nestedRowsEvents : List (List (Option FormBlock)) → Nat → List MatEvent
  | [], _ => []
  | row :: rest, i => nestedRowEvents i row 0 ++ nestedRowsEvents rest (i + 1)

/-- The nested branch of `Assembler::assemble(A, BlockType)` followed by
the unconditional `A.apply(FINAL)` of line 275.  The branch contains no
throw statement, so the error component is always `none`. -/
def nestedAssemble (a : List (List (Option FormBlock))) :
    List MatEvent × Option String :=
  (nestedRowsEvents a 0 ++ [MatEvent.finalApply], none)

/-- The inner (column) loop of the monolithic branch (lines 139–219):
a non-null block is assembled at the current offsets, flushed, and —
when its spaces coincide — receives unit diagonals by `add_local` for
the boundary dofs it owns (`row < map0_size_owned`); the column offset
then advances by the `ALL` size of the block's trial index map.  A null
block throws `"Null block not supported/tested yet."`. -/
def monoRowLoop (i offRow : Nat) :
    List (Option FormBlock) → Nat → Nat → List MatEvent × Option String
  | [], _, _ => ([], none)
  | some blk :: rest, j, offCol =>
      let evs :=
        [MatEvent.assembleBlock i j offRow offCol, MatEvent.flush]
          ++ (if blk.spacesEq then
                (blk.bcdofs.filter (fun d => d < blk.map0.ownedSize)).map
                  MatEvent.addDiag
              else [])
      let r := monoRowLoop i offRow rest (j + 1) (offCol + blk.map1.allSize)
      (evs ++ r.1, r.2)
  | none :: _, _, _ => ([], some "Null block not supported/tested yet.")

/-- The column-offset advancement of one block in the monolithic
branch: the `ALL` size of its trial index map (`map1_size`, line 149,
used at line 211); a null slot contributes nothing (it throws
instead). -/
def colWeightAll : Option FormBlock → Nat
  | some blk => blk.map1.allSize
  | none => 0

/-- The row-offset advancement of one block row in the monolithic
branch: the `ALL` size of the test index map of the row's first block
(lines 220–223). -/
def rowWeightAll (row : List (Option FormBlock)) : Nat :=
  match row.getD 0 none with
  | some blk => blk.map0.allSize
  | none => 0

/-- The owned-size analogue of `colWeightAll`, as claim C5 states the
column advancement. -/
def colWeightOwned : Option FormBlock → Nat
  | some blk => blk.map1.ownedSize
  | none => 0

/-- The owned-size analogue of `rowWeightAll`, as claim C5 states the
row advancement. -/
def rowWeightOwned (row : List (Option FormBlock)) : Nat :=
  match row.getD 0 none with
  | some blk => blk.map0.ownedSize
  | none => 0

/-- The outer (row) loop of the monolithic branch: after a row completes
without error, the row offset advances by the `ALL` size of the test
index map of that row's first block (lines 220–223). -/
def monoRowsLoop : List (List (Option FormBlock)) → Nat → Nat →
    List MatEvent × Option String
  | [], _, _ => ([], none)
  | row :: rest, i, offRow =>
      let r := monoRowLoop i offRow row 0 0
      match r.2 with
      | some e => (r.1, some e)
      | none =>
          let rowAdv := rowWeightAll row
          let r2 := monoRowsLoop rest (i + 1) (offRow + rowAdv)
          (r.1 ++ r2.1, r2.2)

/-- The monolithic branch of `Assembler::assemble(A, BlockType)` (lines
131–236): the block loops, then — only when no exception escaped — the
branch-local `A.apply(FINAL)` of line 235 and the unconditional
`A.apply(FINAL)` of line 275. -/
def monoAssemble (a : List (List (Option FormBlock))) :
    List MatEvent × Option String :=
  let r := monoRowsLoop a 0 0
  match r.2 with
  | some e => (r.1, some e)
  | none => (r.1 ++ [MatEvent.finalApply, MatEvent.finalApply], none)

/-- The single-block branch (lines 237–273) followed by the
unconditional `A.apply(FINAL)` of line 275: assemble, flush, and — when
the spaces coincide — `set_local` unit diagonals with no ownership
test. -/
def singleAssemble (blk : FormBlock) : List MatEvent × Option String :=
  ([MatEvent.assembleBlock 0 0 0 0, MatEvent.flush]
      ++ (if blk.spacesEq then blk.bcdofs.map MatEvent.setDiag else [])
      ++ [MatEvent.finalApply],
    none)

/-- The entry check of `Assembler::assemble(b, BlockType)` (lines
284–288): a null linear-form block throws before any branch runs, so an
erroring call performs no container operation at all. -/
def vecEntryCheck (l : List (Option Unit)) : List MatEvent × Option String :=
  if l.any (fun blk? => blk?.isNone) then
    ([], some "Cannot have NULL linear form block.")
  else ([], none)

/-- Block lookup in a 2-D block array: `some none` is a present null
block, `some (some blk)` a present non-null block. -/
def blockAt (a : List (List (Option FormBlock))) (i j : Nat) :
    Option (Option FormBlock) :=
  if i < a.length ∧ j < (a.getD i []).length then some ((a.getD i []).getD j none)
  else none

/-- Number of `FINAL` synchronisations in a trace. -/
def countFinal (t : List MatEvent) : Nat :=
  (t.filter (fun e => e == MatEvent.finalApply)).length

/-- Claim C9's finalisation discipline, as stated, for one trace:
`FINAL` occurs exactly once. -/
def finalAppliedOnce (t : List MatEvent) : Prop := countFinal t = 1

/-- Scan of the flush discipline: after an additive cell-loop insertion
(`assembleBlock`), a diagonal insertion may only occur once a flush (or
final) synchronisation has intervened.  `pending` records whether
un-flushed additive insertions exist. -/
def flushDisciplineFrom : List MatEvent → Bool → Bool
  | [], _ => true
  | MatEvent.assembleBlock _ _ _ _ :: rest, _ => flushDisciplineFrom rest true
  | MatEvent.flush :: rest, _ => flushDisciplineFrom rest false
  | MatEvent.setDiag _ :: rest, pending =>
      !pending && flushDisciplineFrom rest pending
  | MatEvent.addDiag _ :: rest, pending =>
      !pending && flushDisciplineFrom rest pending
  | MatEvent.finalApply :: rest, _ => flushDisciplineFrom rest false

/-- The `pending` state after scanning a trace. -/
def pendingAfter : List MatEvent → Bool → Bool
  | [], p => p
  | MatEvent.assembleBlock _ _ _ _ :: rest, _ => pendingAfter rest true
  | MatEvent.flush :: rest, _ => pendingAfter rest false
  | MatEvent.setDiag _ :: rest, p => pendingAfter rest p
  | MatEvent.addDiag _ :: rest, p => pendingAfter rest p
  | MatEvent.finalApply :: rest, _ => pendingAfter rest false

/-- Row offset of block row `i` as the code computes it: `Σ` over the
preceding rows of the `ALL` (owned + ghost) size of the row's first
block's test index map. -/
def rowOffsetAll (a : List (List (Option FormBlock))) (i : Nat) : Nat :=
  ((a.take i).map rowWeightAll).sum

/-- Column offset of block `(i, j)` as the code computes it: `Σ` over
the preceding columns of row `i` of the `ALL` size of each block's trial
index map. -/
def colOffsetAll (a : List (List (Option FormBlock))) (i j : Nat) : Nat :=
  (((a.getD i []).take j).map colWeightAll).sum

/-- Row offset as claim C5 states it: `Σ` of the owned sizes of the
preceding row blocks. -/
def rowOffsetOwned (a : List (List (Option FormBlock))) (i : Nat) : Nat :=
  ((a.take i).map rowWeightOwned).sum

/-- Column offset as claim C5 states it: `Σ` of the owned sizes of the
preceding column blocks. -/
def colOffsetOwned (a : List (List (Option FormBlock))) (i j : Nat) : Nat :=
  (((a.getD i []).take j).map colWeightOwned).sum

/-- Claim C5 as stated, for one block array: every insertion offset the
monolithic branch uses equals the prefix sum of owned sizes. -/
def monoOffsetsAreOwnedSums (a : List (List (Option FormBlock))) : Prop :=
  ∀ i j offRow offCol,
    MatEvent.assembleBlock i j offRow offCol ∈ (monoAssemble a).1 →
      offRow = rowOffsetOwned a i ∧ offCol = colOffsetOwned a i j

/-- Claim C8 as stated, for the outcome of one assembly entry point: if
a structural error is raised, no container operation has happened. -/
def errorBeforeAnyInsertion (r : List MatEvent × Option String) : Prop :=
  r.2.isSome → r.1 = []

/-- Claim C1 as stated, at one configuration: boundary rows of the local
element matrix are zeroed before insertion, and the diagonal pass
touches owned boundary dofs only. -/
def claimC1Stated (A : Mat) (cells : List MatCell) (bcs0 bcs1 : List BCMap)
    (ownedSize : Nat) : Prop :=
  (∀ c : MatCell, ∀ i j : Nat,
      bcHas (mergeBoundaryValues bcs0) (c.dofs0.getD i 0) = true →
        zeroBcRowsCols c (mergeBoundaryValues bcs0) (mergeBoundaryValues bcs1)
            i j = 0)
    ∧ singleDiagOwnedOnly A cells bcs0 bcs1 ownedSize

/-! ## `MultiPointConstraint::cell_classification`
(the second source file bundled in `dolfin/main/SubSystemsManager.cpp`,
lines 206–250). -/

/-- The mutable classification state of a `MultiPointConstraint`:
`_slave_cells`, `_normal_cells`, `_offsets_cell_to_slave` and
`_cell_to_slave`. -/
structure MPCState where
  slave_cells : List Nat
  normal_cells : List Nat
  offsets : List Nat
  cell_to_slave : List Nat
deriving DecidableEq

/-- A freshly constructed state (all four vectors empty). -/
def freshMPCState : MPCState := ⟨[], [], [], []⟩

/-- The slave occurrences recorded for one cell: the inner loops at
lines 227–238 iterate the slave list outside and the cell dofs inside,
pushing `slave` once per matching dof occurrence. -/
def cellMatches (slaves dofs : List Nat) : List Nat :=
  slaves.foldl (fun acc s => acc ++ dofs.filter (fun d => d == s)) []

/-- The cell loop of `cell_classification` (lines 221–248): `idx` is the
current cell index, `j` the running count of slave occurrences recorded
in this invocation. -/
def classifyLoop (slaves : List Nat) :
    List (List Nat) → Nat → Nat → MPCState → MPCState
  | [], _, _, st => st
  | dofs :: rest, idx, j, st =>
      let m := cellMatches slaves dofs
      if m.length = 0 then
        classifyLoop slaves rest (idx + 1) j
          { st with normal_cells := st.normal_cells ++ [idx] }
      else
        classifyLoop slaves rest (idx + 1) (j + m.length)
          { st with
              slave_cells := st.slave_cells ++ [idx]
              cell_to_slave := st.cell_to_slave ++ m
              offsets := st.offsets ++ [j + m.length] }

/-- `MultiPointConstraint::cell_classification` (lines 206–250): if
`_slave_cells` is non-empty the cached pair is returned unchanged;
otherwise `0` is pushed onto the offsets array and every cell of the
mesh (given as its per-cell dof lists) is classified, appending to the
existing state vectors. -/
def cell_classification (slaves : List Nat) (cells : List (List Nat))
    (st : MPCState) : MPCState × (List Nat × List Nat) :=
  if 0 < st.slave_cells.length then (st, (st.slave_cells, st.normal_cells))
  else
    let st1 := { st with offsets := st.offsets ++ [0] }
    let st2 := classifyLoop slaves cells 0 0 st1
    (st2, (st2.slave_cells, st2.normal_cells))

/-- The cell indices (from `idx` on) that the loop classifies as slave
cells. -/
def slaveIdxs (slaves : List Nat) : List (List Nat) → Nat → List Nat
  | [], _ => []
  | dofs :: rest, idx =>
      (if (cellMatches slaves dofs).length = 0 then [] else [idx])
        ++ slaveIdxs slaves rest (idx + 1)

/-- The cell indices (from `idx` on) that the loop classifies as normal
cells. -/
def normalIdxs (slaves : List Nat) : List (List Nat) → Nat → List Nat
  | [], _ => []
  | dofs :: rest, idx =>
      (if (cellMatches slaves dofs).length = 0 then [idx] else [])
        ++ normalIdxs slaves rest (idx + 1)

/-- The concatenation of all cells' recorded slave occurrences. -/
def flatMatches (slaves : List Nat) : List (List Nat) → List Nat
  | [] => []
  | dofs :: rest => cellMatches slaves dofs ++ flatMatches slaves rest

/-! ## `NonlinearProblem` deprecation sentinel
(`dolfin/nls/NonlinearProblem.h`, lines 19–79). -/

/-- A `NonlinearProblem` subclass, reduced to the one capability the
sentinel mechanism probes: whether it overrides the deprecated
three-argument `form(A, b, x)`. -/
structure NLProblem where
  overrides3 : Bool

/-- The base-class body of the deprecated `form(A, b, x)` (lines 32–36):
it only sets the `_called` sentinel. -/
def form3Base (called : Bool) : Bool :=
  let _ := called
  true

/-- The virtual call `form(A, b, x)` issued from the four-argument
overload: a subclass override leaves `_called` untouched, the base body
sets it. -/
def form3Dispatch (p : NLProblem) (called : Bool) : Bool :=
  if p.overrides3 then called else form3Base called

/-- The base four-argument `form(A, P, b, x)` (lines 41–56): dispatch
the three-argument virtual, warn when the sentinel was not set, reset
the sentinel.  Returns (deprecation warning issued, `_called` on
return). -/
def form4 (p : NLProblem) (called : Bool) : Bool × Bool :=
  let c1 := form3Dispatch p called
  let warned := !c1
  (warned, false)

/-! ## Concrete configurations used by counterexamples and witnesses. -/

/-- A 1×1 element matrix with entry 3. -/
def tabC3 : Nat → Nat → Nat → Int := fun _ _ _ => 3

/-- The `apply_bc` failing input: one cell, test dofs `[0]`, trial dofs
`[1]`, element matrix `[[3]]`, and the value 2 prescribed at trial dof
1. -/
def cfgC3 : BcFormData :=
  ⟨1, fun _ => [0], fun _ => [1], tabC3⟩

/-- A non-null block whose test/trial index maps own 3 dofs and carry 2
ghosts, equal spaces, boundary dof 1. -/
def blkGhost : FormBlock := ⟨⟨3, 2⟩, ⟨3, 2⟩, true, [1]⟩

/-- A 1×2 all-non-null block array whose first block has ghosts, used to
exhibit the `ALL`-size offset advancement. -/
def aGhost : List (List (Option FormBlock)) := [[some blkGhost, some blkGhost]]

/-- A 1×2 block array whose second block is null, used for the
null-block claims. -/
def aNullSecond : List (List (Option FormBlock)) := [[some blkGhost, none]]

/-- A 2-cell mesh, dofs `[[0], [1]]`, for the classifier claims. -/
def cellsC6 : List (List Nat) := [[0], [1]]

/-- One vector-assembly cell touching dof 0 with contribution 4. -/
def cellsC2 : List VecCell := [⟨[0], fun _ => 4⟩]

/-- Two boundary conditions prescribing dof 0 (values 5 then 7). -/
def bcsC2 : List BCMap := [[(0, 5)], [(0, 7)]]

/-- A two-block vector configuration: first block owns 2 dofs, second
owns 1 dof with dof 0 prescribed to 3. -/
def blocksC2 : List VecBlockData :=
  [⟨cellsC2, 2, 0, [[(0, 7)]]⟩, ⟨[], 1, 0, [[(0, 3)]]⟩]

/-- The classifier state after one run on a freshly constructed
`MultiPointConstraint`. -/
def classifyFresh (slaves : List Nat) (cells : List (List Nat)) : MPCState :=
  (cell_classification slaves cells freshMPCState).1

/-! ## Theorems -/

/-- C3.  `Assembler::apply_bc` at the failing input `cfgC3` (one cell,
test dofs `[0]`, trial dofs `[1]`, element matrix `[[3]]`, value `2`
prescribed at trial dof `1`): the eliminated contribution
`-Ae.col(1)·g = -6` is added at index `1` — the trial-space dof
position, because line 725 builds `dmap0` from `dofmap1` — while the
test-space position `0` stays zero; the behaviour the claim (and spec
§4.6) describes would put `-6` at index `0`. -/
theorem claim_C3 :
    apply_bc zeroVec cfgC3 [[(1, 2)]] 1 = -6
      ∧ apply_bc zeroVec cfgC3 [[(1, 2)]] 0 = 0
      ∧ apply_bc_specified zeroVec cfgC3 [[(1, 2)]] 0 = -6
      ∧ apply_bc_specified zeroVec cfgC3 [[(1, 2)]] 1 = 0 := by
  refine ⟨?_, ?_, ?_, ?_⟩ <;> decide

/-- C6.  `cell_classification` is not idempotent when the first call
produced an empty `slave_cells` set: on the two-cell mesh `cellsC6` with
slave set `{5}` (no dof matches), the first call returns the partition
`([], [0, 1])` with offsets `[0]`, but the guard `_slave_cells.size() >
0` fails to recognise the state as computed, so the second call
recomputes, duplicating `normal_cells` to `[0, 1, 0, 1]` and growing
the offsets array to `[0, 0]`. -/
theorem claim_C6 :
    (cell_classification [5] cellsC6 freshMPCState).2 = ([], [0, 1])
      ∧ (cell_classification [5] cellsC6 freshMPCState).1.offsets = [0]
      ∧ (cell_classification [5] cellsC6
            (cell_classification [5] cellsC6 freshMPCState).1).2
          ≠ (cell_classification [5] cellsC6 freshMPCState).2
      ∧ (cell_classification [5] cellsC6
            (cell_classification [5] cellsC6 freshMPCState).1).2
          = ([], [0, 1, 0, 1])
      ∧ (cell_classification [5] cellsC6
            (cell_classification [5] cellsC6 freshMPCState).1).1.offsets
          = [0, 0] := by
  refine ⟨?_, ?_, ?_, ?_, ?_⟩ <;> decide

/-- C10.  The base four-argument `NonlinearProblem::form` issues the
deprecation warning exactly when the subclass overrides the deprecated
three-argument overload (so the base body, which sets the sentinel, did
not run), always returns with `_called == false`, and therefore behaves
identically on repeated calls. -/
theorem claim_C10 (p : NLProblem) (c : Bool) :
    (form4 p false).1 = p.overrides3
      ∧ (form4 p c).2 = false
      ∧ form4 p (form4 p c).2 = form4 p false := by
  obtain ⟨ov⟩ := p
  cases ov <;> cases c <;> refine ⟨rfl, rfl, rfl⟩

/-- C1, counterexample.  At the configuration with no cells, merged
test-space boundary map `{5 ↦ 2}` and owned size `3`, the single-block
path places a unit value on the diagonal entry `(5, 5)` even though the
calling rank does not own dof `5` (the loop at lines 265–271 has no
ownership test), refuting the claim that the diagonal pass touches only
owned boundary dofs. -/
theorem claim_C1_cex : ¬ claimC1Stated zeroMat [] [[(5, 2)]] [] 3 := by
  intro h
  exact absurd (h.2 5 (by decide)) (by decide)

/-- C5, counterexample.  On the 1×2 block array `aGhost`, whose first
block's trial index map owns 3 dofs and carries 2 ghosts, the monolithic
branch inserts block `(0, 1)` at column offset `5 = 3 + 2` (the `ALL`
size of the preceding block), not at the prefix sum `3` of owned sizes
that the claim states. -/
theorem claim_C5_cex : ¬ monoOffsetsAreOwnedSums aGhost := by
  intro h
  exact absurd (h 0 1 0 5 (by decide)).2 (by decide)

/-- C8, counterexample.  On the block array `aNullSecond`, whose first
block is non-null and second block is null, the monolithic branch raises
the null-block error only after block `(0, 0)` has already been
assembled, flushed and given its unit diagonal: the trace at the throw
is non-empty, so the container is not unchanged on error. -/
theorem claim_C8_cex : ¬ errorBeforeAnyInsertion (monoAssemble aNullSecond) := by
  intro h
  exact absurd (h (by decide)) (by decide)

/-- C9, counterexample.  On the all-non-null 1×2 block array `aGhost`
the monolithic branch applies `FINAL` twice — once at the end of the
branch (line 235) and once unconditionally at the end of the call (line
275) — refuting "a final complete/FINAL synchronization occurs exactly
once per assembly call". -/
theorem claim_C9_cex : ¬ finalAppliedOnce (monoAssemble aGhost).1 := by
  unfold finalAppliedOnce
  decide

/-- The elements of `cellMatches` are exactly the slave dofs occurring
in the cell's dof list. -/
theorem mem_cellMatches_foldl (dofs : List Nat) (x : Nat) :
    ∀ (slaves : List Nat) (acc : List Nat),
      (x ∈ slaves.foldl (fun acc s => acc ++ dofs.filter (fun d => d == s)) acc)
        ↔ x ∈ acc ∨ (x ∈ slaves ∧ x ∈ dofs) := by
  intro slaves
  induction slaves with
  | nil => intro acc; simp
  | cons s rest ih =>
      intro acc
      rw [List.foldl_cons, ih]
      simp only [List.mem_append, List.mem_filter, List.mem_cons, beq_iff_eq]
      constructor
      · rintro ((h | ⟨h1, h2⟩) | ⟨h1, h2⟩)
        · exact Or.inl h
        · exact Or.inr ⟨Or.inl h2, h1⟩
        · exact Or.inr ⟨Or.inr h1, h2⟩
      · rintro (h | ⟨h1 | h1, h2⟩)
        · exact Or.inl (Or.inl h)
        · exact Or.inl (Or.inr ⟨h2, h1⟩)
        · exact Or.inr ⟨h1, h2⟩

/-- Membership in `cellMatches`. -/
theorem mem_cellMatches (slaves dofs : List Nat) (x : Nat) :
    x ∈ cellMatches slaves dofs ↔ x ∈ slaves ∧ x ∈ dofs := by
  unfold cellMatches
  rw [mem_cellMatches_foldl]
  simp

/-- A cell records a slave occurrence exactly when one of its dofs
equals a slave dof. -/
theorem cellMatches_length_ne_zero (slaves dofs : List Nat) :
    (cellMatches slaves dofs).length ≠ 0 ↔ ∃ s, s ∈ slaves ∧ s ∈ dofs := by
  rw [Ne, List.length_eq_zero, List.eq_nil_iff_forall_not_mem]
  push_neg
  constructor
  · rintro ⟨x, hx⟩
    exact ⟨x, (mem_cellMatches slaves dofs x).mp hx⟩
  · rintro ⟨s, h1, h2⟩
    exact ⟨s, (mem_cellMatches slaves dofs s).mpr ⟨h1, h2⟩⟩

/-- Closed form of the slave-cell list produced by the cell loop. -/
theorem classifyLoop_slave_cells (slaves : List Nat) :
    ∀ (cells : List (List Nat)) (idx j : Nat) (st : MPCState),
      (classifyLoop slaves cells idx j st).slave_cells
        = st.slave_cells ++ slaveIdxs slaves cells idx := by
  intro cells
  induction cells with
  | nil => intro idx j st; simp [classifyLoop, slaveIdxs]
  | cons dofs rest ih =>
      intro idx j st
      by_cases hm : (cellMatches slaves dofs).length = 0 <;>
        simp [classifyLoop, slaveIdxs, hm, ih, List.append_assoc]

/-- Closed form of the normal-cell list produced by the cell loop. -/
theorem classifyLoop_normal_cells (slaves : List Nat) :
    ∀ (cells : List (List Nat)) (idx j : Nat) (st : MPCState),
      (classifyLoop slaves cells idx j st).normal_cells
        = st.normal_cells ++ normalIdxs slaves cells idx := by
  intro cells
  induction cells with
  | nil => intro idx j st; simp [classifyLoop, normalIdxs]
  | cons dofs rest ih =>
      intro idx j st
      by_cases hm : (cellMatches slaves dofs).length = 0 <;>
        simp [classifyLoop, normalIdxs, hm, ih, List.append_assoc]

/-- Closed form of the flat cell-to-slave array produced by the cell
loop. -/
theorem classifyLoop_cell_to_slave (slaves : List Nat) :
    ∀ (cells : List (List Nat)) (idx j : Nat) (st : MPCState),
      (classifyLoop slaves cells idx j st).cell_to_slave
        = st.cell_to_slave ++ flatMatches slaves cells := by
  intro cells
  induction cells with
  | nil => intro idx j st; simp [classifyLoop, flatMatches]
  | cons dofs rest ih =>
      intro idx j st
      by_cases hm : (cellMatches slaves dofs).length = 0
      · have hnil : cellMatches slaves dofs = [] := List.length_eq_zero.mp hm
        simp [classifyLoop, flatMatches, hm, hnil, ih]
      · simp [classifyLoop, flatMatches, hm, ih, List.append_assoc]

/-- The offsets array after the cell loop: still nondecreasing, one
entry per new slave cell, last entry advanced by the number of recorded
slave occurrences. -/
theorem classifyLoop_offsets (slaves : List Nat) :
    ∀ (cells : List (List Nat)) (idx j : Nat) (st : MPCState),
      st.offsets.getLast? = some j → List.Chain' (· ≤ ·) st.offsets →
        (classifyLoop slaves cells idx j st).offsets.getLast?
            = some (j + (flatMatches slaves cells).length)
          ∧ List.Chain' (· ≤ ·) (classifyLoop slaves cells idx j st).offsets
          ∧ (classifyLoop slaves cells idx j st).offsets.length
              = st.offsets.length + (slaveIdxs slaves cells idx).length := by
  intro cells
  induction cells with
  | nil =>
      intro idx j st hlast hchain
      simp [classifyLoop, flatMatches, slaveIdxs, hlast, hchain]
  | cons dofs rest ih =>
      intro idx j st hlast hchain
      by_cases hm : (cellMatches slaves dofs).length = 0
      · have hnil : cellMatches slaves dofs = [] := List.length_eq_zero.mp hm
        have h2 := ih (idx + 1) j { st with normal_cells := st.normal_cells ++ [idx] }
          hlast hchain
        simp only [classifyLoop, flatMatches, slaveIdxs, hnil, List.length_nil,
          List.nil_append, if_pos]
        simpa using h2
      · have hne : cellMatches slaves dofs ≠ [] := by
          intro hc
          exact hm (by simp [hc])
        have hlast2 : (st.offsets ++ [j + (cellMatches slaves dofs).length]).getLast?
            = some (j + (cellMatches slaves dofs).length) := by
          simp
        have hchain2 : List.Chain' (· ≤ ·)
            (st.offsets ++ [j + (cellMatches slaves dofs).length]) := by
          rw [List.chain'_append]
          refine ⟨hchain, List.chain'_singleton _, ?_⟩
          intro x hx y hy
          rw [hlast] at hx
          simp at hx hy
          omega
        have h2 := ih (idx + 1) (j + (cellMatches slaves dofs).length)
          { st with
              slave_cells := st.slave_cells ++ [idx]
              cell_to_slave := st.cell_to_slave ++ cellMatches slaves dofs
              offsets := st.offsets ++ [j + (cellMatches slaves dofs).length] }
          hlast2 hchain2
        simp only [classifyLoop, flatMatches, slaveIdxs, hm, if_neg, ite_false,
          List.length_append, hne]
        refine ⟨?_, h2.2.1, ?_⟩
        · rw [h2.1]
          congr 1
          omega
        · rw [h2.2.2]
          simp
          omega

/-- Membership in the slave-index list: exactly the cells (counted from
`idx`) with a slave occurrence. -/
theorem mem_slaveIdxs (slaves : List Nat) :
    ∀ (cells : List (List Nat)) (idx c : Nat),
      c ∈ slaveIdxs slaves cells idx
        ↔ ∃ k, k < cells.length ∧ c = idx + k
            ∧ (cellMatches slaves (cells.getD k [])).length ≠ 0 := by
  intro cells
  induction cells with
  | nil => intro idx c; simp [slaveIdxs]
  | cons dofs rest ih =>
      intro idx c
      by_cases hm : (cellMatches slaves dofs).length = 0
      · simp only [slaveIdxs, hm, if_true, eq_self_iff_true, List.nil_append, ih]
        constructor
        · rintro ⟨k, hk, hc, hne⟩
          exact ⟨k + 1, by simpa using hk, by omega, by simpa using hne⟩
        · rintro ⟨k, hk, hc, hne⟩
          match k with
          | 0 => exact absurd hm (by simpa using hne)
          | k + 1 =>
              exact ⟨k, by simpa using hk, by omega, by simpa using hne⟩
      · simp only [slaveIdxs, hm, if_false, List.singleton_append, List.mem_cons, ih]
        constructor
        · rintro (h | ⟨k, hk, hc, hne⟩)
          · exact ⟨0, by simp, by omega, by simpa using hm⟩
          · exact ⟨k + 1, by simpa using hk, by omega, by simpa using hne⟩
        · rintro ⟨k, hk, hc, hne⟩
          match k with
          | 0 => exact Or.inl (by omega)
          | k + 1 =>
              exact Or.inr ⟨k, by simpa using hk, by omega, by simpa using hne⟩

/-- Membership in the normal-index list: exactly the cells (counted from
`idx`) without a slave occurrence. -/
theorem mem_normalIdxs (slaves : List Nat) :
    ∀ (cells : List (List Nat)) (idx c : Nat),
      c ∈ normalIdxs slaves cells idx
        ↔ ∃ k, k < cells.length ∧ c = idx + k
            ∧ (cellMatches slaves (cells.getD k [])).length = 0 := by
  intro cells
  induction cells with
  | nil => intro idx c; simp [normalIdxs]
  | cons dofs rest ih =>
      intro idx c
      by_cases hm : (cellMatches slaves dofs).length = 0
      · simp only [normalIdxs, hm, if_true, eq_self_iff_true, List.singleton_append,
          List.mem_cons, ih]
        constructor
        · rintro (h | ⟨k, hk, hc, hne⟩)
          · exact ⟨0, by simp, by omega, by simpa using hm⟩
          · exact ⟨k + 1, by simpa using hk, by omega, by simpa using hne⟩
        · rintro ⟨k, hk, hc, hne⟩
          match k with
          | 0 => exact Or.inl (by omega)
          | k + 1 =>
              exact Or.inr ⟨k, by simpa using hk, by omega, by simpa using hne⟩
      · simp only [normalIdxs, hm, if_false, List.nil_append, ih]
        constructor
        · rintro ⟨k, hk, hc, hne⟩
          exact ⟨k + 1, by simpa using hk, by omega, by simpa using hne⟩
        · rintro ⟨k, hk, hc, hne⟩
          match k with
          | 0 => exact absurd (by simpa using hne) hm
          | k + 1 =>
              exact ⟨k, by simpa using hk, by omega, by simpa using hne⟩

/-- The fresh run of the classifier is the loop started from the state
whose offsets array holds the initial `0`. -/
theorem classifyFresh_eq (slaves : List Nat) (cells : List (List Nat)) :
    classifyFresh slaves cells
      = classifyLoop slaves cells 0 0 ⟨[], [], [0], []⟩ := by
  rfl

/-- C7.  After one run of `cell_classification` on a fresh constraint
set: the slave and normal cell lists jointly cover exactly the cell
indices of the mesh, are disjoint, and a cell is a slave cell precisely
when one of its dofs equals a slave dof; the offsets array is
nondecreasing, one entry longer than the slave-cell list, and its last
entry equals the length of the flat cell-to-slave array. -/
theorem claim_C7 (slaves : List Nat) (cells : List (List Nat)) :
    (∀ c : Nat,
        (c ∈ (classifyFresh slaves cells).slave_cells
            ∨ c ∈ (classifyFresh slaves cells).normal_cells)
          ↔ c < cells.length)
      ∧ (∀ c : Nat,
          (((classifyFresh slaves cells).slave_cells.contains c)
              && ((classifyFresh slaves cells).normal_cells.contains c))
            = false)
      ∧ (∀ c : Nat,
          c ∈ (classifyFresh slaves cells).slave_cells
            ↔ (c < cells.length ∧ ∃ s, s ∈ slaves ∧ s ∈ cells.getD c []))
      ∧ List.Chain' (· ≤ ·) (classifyFresh slaves cells).offsets
      ∧ (classifyFresh slaves cells).offsets.length
          = (classifyFresh slaves cells).slave_cells.length + 1
      ∧ (classifyFresh slaves cells).offsets.getLast?
          = some (classifyFresh slaves cells).cell_to_slave.length := by
  have hsl : (classifyFresh slaves cells).slave_cells = slaveIdxs slaves cells 0 := by
    rw [classifyFresh_eq, classifyLoop_slave_cells]
    rfl
  have hnm : (classifyFresh slaves cells).normal_cells
      = normalIdxs slaves cells 0 := by
    rw [classifyFresh_eq, classifyLoop_normal_cells]
    rfl
  have hct : (classifyFresh slaves cells).cell_to_slave
      = flatMatches slaves cells := by
    rw [classifyFresh_eq, classifyLoop_cell_to_slave]
    rfl
  have hoff := classifyLoop_offsets slaves cells 0 0 ⟨[], [], [0], []⟩
    (by simp) (by simp)
  have hmemS : ∀ c : Nat,
      c ∈ (classifyFresh slaves cells).slave_cells
        ↔ (c < cells.length
            ∧ (cellMatches slaves (cells.getD c [])).length ≠ 0) := by
    intro c
    rw [hsl, mem_slaveIdxs]
    constructor
    · rintro ⟨k, hk, hc, hne⟩
      have : k = c := by omega
      subst this
      exact ⟨hk, hne⟩
    · rintro ⟨hk, hne⟩
      exact ⟨c, hk, by omega, hne⟩
  have hmemN : ∀ c : Nat,
      c ∈ (classifyFresh slaves cells).normal_cells
        ↔ (c < cells.length
            ∧ (cellMatches slaves (cells.getD c [])).length = 0) := by
    intro c
    rw [hnm, mem_normalIdxs]
    constructor
    · rintro ⟨k, hk, hc, hne⟩
      have : k = c := by omega
      subst this
      exact ⟨hk, hne⟩
    · rintro ⟨hk, hne⟩
      exact ⟨c, hk, by omega, hne⟩
  refine ⟨?_, ?_, ?_, ?_, ?_, ?_⟩
  · intro c
    rw [hmemS c, hmemN c]
    constructor
    · rintro (⟨h, _⟩ | ⟨h, _⟩) <;> exact h
    · intro h
      by_cases hz : (cellMatches slaves (cells.getD c [])).length = 0
      · exact Or.inr ⟨h, hz⟩
      · exact Or.inl ⟨h, hz⟩
  · intro c
    by_cases hc : c ∈ (classifyFresh slaves cells).slave_cells
    · have h1 := (hmemS c).mp hc
      have h2 : c ∉ (classifyFresh slaves cells).normal_cells := by
        intro hmem
        exact h1.2 ((hmemN c).mp hmem).2
      have h2' : (classifyFresh slaves cells).normal_cells.contains c = false := by
        simpa using h2
      rw [h2', Bool.and_false]
    · have h1 : (classifyFresh slaves cells).slave_cells.contains c = false := by
        simpa using hc
      rw [h1, Bool.false_and]
  · intro c
    rw [hmemS c]
    constructor
    · rintro ⟨h1, h2⟩
      exact ⟨h1, (cellMatches_length_ne_zero slaves (cells.getD c [])).mp h2⟩
    · rintro ⟨h1, h2⟩
      exact ⟨h1, (cellMatches_length_ne_zero slaves (cells.getD c [])).mpr h2⟩
  · rw [classifyFresh_eq]
    exact hoff.2.1
  · rw [classifyFresh_eq]
    have := hoff.2.2
    rw [classifyFresh_eq] at hsl
    rw [this, hsl]
    simp only [List.length_singleton]
    omega
  · rw [classifyFresh_eq]
    have := hoff.1
    rw [classifyFresh_eq] at hct
    rw [this, hct]
    simp

/-- Filtering out key `d` does not change lookups of other keys. -/
theorem find?_key_filter_ne (d x : Nat) (hxd : x ≠ d) :
    ∀ l : List (Nat × Int),
      List.find? (fun p => p.1 == x) (List.filter (fun p => p.1 != d) l)
        = List.find? (fun p => p.1 == x) l := by
  intro l
  induction l with
  | nil => rfl
  | cons q rest ih =>
      by_cases hq : q.1 = d
      · have h1 : (q.1 != d) = false := by simp [hq]
        have h2 : (q.1 == x) = false := by
          rw [hq]
          exact beq_eq_false_iff_ne.mpr (Ne.symm hxd)
        simp only [List.filter_cons, h1, if_neg, Bool.false_eq_true,
          not_false_eq_true, List.find?_cons, h2, ih]
      · have h1 : (q.1 != d) = true := by simp [hq]
        by_cases hx : q.1 = x
        · simp only [List.filter_cons, h1, if_pos, List.find?_cons,
            show (q.1 == x) = true by simp [hx]]
        · have h2 : (q.1 == x) = false := by simp [hx]
          simp only [List.filter_cons, h1, if_pos, List.find?_cons, h2, ih]

/-- Lookup after a key-overwriting insertion. -/
theorem bcFind_bcInsert (l : BCMap) (d x : Nat) (v : Int) :
    bcFind (bcInsert l d v) x = if x = d then some v else bcFind l x := by
  unfold bcFind bcInsert
  rw [List.find?_append]
  by_cases hxd : x = d
  · subst hxd
    have hnone : List.find? (fun p => p.1 == x)
        (List.filter (fun p => p.1 != x) l) = none := by
      rw [List.find?_eq_none]
      intro p hp
      have := (List.mem_filter.mp hp).2
      simp at this ⊢
      exact this
    rw [hnone]
    simp
  · have h2 : List.find? (fun p => p.1 == x) [(d, v)] = none := by
      have hdx : (d == x) = false := beq_eq_false_iff_ne.mpr (fun hdx => hxd hdx.symm)
      simp [List.find?_cons, hdx]
    rw [h2, Option.or_none, find?_key_filter_ne d x hxd l]
    simp [hxd]

/-- Key-overwriting insertion keeps the key list duplicate-free. -/
theorem nodup_keys_bcInsert (l : BCMap) (d : Nat) (v : Int)
    (h : (l.map (fun p => p.1)).Nodup) :
    ((bcInsert l d v).map (fun p => p.1)).Nodup := by
  unfold bcInsert
  rw [List.map_append, List.nodup_append]
  refine ⟨?_, by simp, ?_⟩
  · exact h.sublist (List.Sublist.map _ (List.filter_sublist l))
  · intro a ha
    simp only [List.mem_map] at ha
    obtain ⟨p, hp, rfl⟩ := ha
    have := (List.mem_filter.mp hp).2
    simp at this ⊢
    exact this

/-- Folding key-overwriting insertions keeps the key list
duplicate-free. -/
theorem nodup_keys_insert_fold (pairs : List (Nat × Int)) :
    ∀ acc : BCMap, ((acc : List (Nat × Int)).map (fun p => p.1)).Nodup →
      ((pairs.foldl (fun a p => bcInsert a p.1 p.2) acc).map (fun p => p.1)).Nodup := by
  induction pairs with
  | nil => intro acc h; exact h
  | cons q rest ih =>
      intro acc h
      exact ih (bcInsert acc q.1 q.2) (nodup_keys_bcInsert acc q.1 q.2 h)

/-- The merged boundary-value map has duplicate-free keys. -/
theorem nodup_keys_merge (bcs : List BCMap) :
    ((mergeBoundaryValues bcs).map (fun p => p.1)).Nodup := by
  unfold mergeBoundaryValues
  suffices h : ∀ acc : BCMap, ((acc : List (Nat × Int)).map (fun p => p.1)).Nodup →
      ((bcs.foldl (fun acc bc => bc.foldl (fun a p => bcInsert a p.1 p.2) acc)
          acc).map (fun p => p.1)).Nodup by
    exact h [] (by simp)
  induction bcs with
  | nil => intro acc h; exact h
  | cons bc rest ih =>
      intro acc h
      exact ih _ (nodup_keys_insert_fold bc acc h)

/-- In a map with duplicate-free keys, the value of a key is unique. -/
theorem bc_val_unique (d : Nat) (g : Int) :
    ∀ l : BCMap, ((l : List (Nat × Int)).map (fun p => p.1)).Nodup →
      (d, g) ∈ l → ∀ p ∈ l, p.1 = d → p.2 = g := by
  intro l
  induction l with
  | nil => intro _ h; simp at h
  | cons q rest ih =>
      intro hnd hm p hp hpd
      rw [List.map_cons, List.nodup_cons] at hnd
      rcases List.mem_cons.mp hm with hq | hq
      · rcases List.mem_cons.mp hp with hpq | hpq
        · rw [hpq, ← hq]
        · exfalso
          apply hnd.1
          rw [List.mem_map]
          refine ⟨p, hpq, ?_⟩
          rw [hpd, ← hq]
      · rcases List.mem_cons.mp hp with hpq | hpq
        · exfalso
          apply hnd.1
          rw [List.mem_map]
          refine ⟨(d, g), hq, ?_⟩
          rw [← hpd, hpq]
        · exact ih hnd.2 hq p hpq hpd

/-- A successful lookup exhibits a member of the map. -/
theorem bcFind_eq_some_mem (l : BCMap) (d : Nat) (g : Int)
    (h : bcFind l d = some g) : (d, g) ∈ l := by
  unfold bcFind at h
  rw [Option.map_eq_some'] at h
  obtain ⟨p, hp, hg⟩ := h
  have h1 : p.1 = d := by
    have := List.find?_some hp
    simpa using this
  have h2 := List.mem_of_find?_eq_some hp
  have : p = (d, g) := by
    rw [Prod.ext_iff]
    exact ⟨h1, hg⟩
  rwa [this] at h2

/-- A failed lookup means the key is absent. -/
theorem bcFind_eq_none_not_key (l : BCMap) (d : Nat) (h : bcFind l d = none) :
    ∀ p ∈ l, p.1 ≠ d := by
  unfold bcFind at h
  rw [Option.map_eq_none'] at h
  intro p hp
  have := List.find?_eq_none.mp h p hp
  simpa using this

/-- Presence in a boundary-value map, as an existential. -/
theorem bcHas_iff_exists (bv : BCMap) (d : Nat) :
    bcHas bv d = true ↔ ∃ p ∈ bv, p.1 = d := by
  unfold bcHas bcFind
  rw [Option.isSome_map']
  rw [List.find?_isSome]
  constructor
  · rintro ⟨p, hp, hpd⟩
    exact ⟨p, hp, by simpa using hpd⟩
  · rintro ⟨p, hp, hpd⟩
    exact ⟨p, hp, by simpa using hpd⟩

/-- A diagonal entry already holding `1` survives the unit-diagonal
pass (every write of the pass writes `1`). -/
theorem setUnitDiagonal_preserved (l : BCMap) :
    ∀ (M : Mat) (d : Nat), M d d = 1 → setUnitDiagonal M l d d = 1 := by
  induction l with
  | nil => intro M d h; exact h
  | cons q rest ih =>
      intro M d h
      unfold setUnitDiagonal at *
      rw [List.foldl_cons]
      apply ih
      unfold matSetAt
      by_cases hq : d = q.1 ∧ d = q.1
      · rw [if_pos hq]
      · rw [if_neg hq]
        exact h

/-- Every dof present in the map receives a unit diagonal. -/
theorem setUnitDiagonal_mem (l : BCMap) :
    ∀ (M : Mat) (d : Nat), (∃ p ∈ l, p.1 = d) → setUnitDiagonal M l d d = 1 := by
  induction l with
  | nil => intro M d h; simp at h
  | cons q rest ih =>
      intro M d h
      unfold setUnitDiagonal at *
      rw [List.foldl_cons]
      by_cases hq : q.1 = d
      · apply setUnitDiagonal_preserved
        unfold matSetAt
        rw [if_pos ⟨hq.symm, hq.symm⟩]
      · obtain ⟨p, hp, hpd⟩ := h
        rcases List.mem_cons.mp hp with hpq | hpq
        · exact absurd (hpq ▸ hpd) hq
        · exact ih _ d ⟨p, hpq, hpd⟩

/-- Entries that are not the diagonal of a mapped dof are untouched by
the unit-diagonal pass. -/
theorem setUnitDiagonal_untouched (l : BCMap) :
    ∀ (M : Mat) (r c : Nat), (r = c → ∀ p ∈ l, p.1 ≠ r) →
      setUnitDiagonal M l r c = M r c := by
  induction l with
  | nil => intro M r c _; rfl
  | cons q rest ih =>
      intro M r c h
      unfold setUnitDiagonal at *
      rw [List.foldl_cons]
      have hstep : matSetAt M q.1 q.1 1 r c = M r c := by
        unfold matSetAt
        rw [if_neg]
        rintro ⟨h1, h2⟩
        exact h (h1.trans h2.symm) q (List.mem_cons_self q rest) h1.symm
      have hrest := ih (matSetAt M q.1 q.1 1) r c
        (fun hrc p hp => h hrc p (List.mem_cons_of_mem q hp))
      rw [hrest, hstep]

/-- C1 (amended).  In the single-block matrix path: every local element
matrix row whose global test dof carries a boundary value, and every
column whose global trial dof carries one, is zeroed before the additive
insertion; and after the cell iteration, when test space equals trial
space, a unit value is set at the global diagonal entry of **every** dof
of the merged gathered boundary-value map — with no ownership filter, so
also at boundary dofs the calling rank does not own — and at no other
entry. -/
theorem claim_C1 (A : Mat) (cells : List MatCell) (bcs0 bcs1 : List BCMap) :
    (∀ c : MatCell, ∀ i j : Nat,
        bcHas (mergeBoundaryValues bcs0) (c.dofs0.getD i 0) = true →
          zeroBcRowsCols c (mergeBoundaryValues bcs0) (mergeBoundaryValues bcs1)
              i j = 0)
      ∧ (∀ c : MatCell, ∀ i j : Nat,
          bcHas (mergeBoundaryValues bcs1) (c.dofs1.getD j 0) = true →
            zeroBcRowsCols c (mergeBoundaryValues bcs0) (mergeBoundaryValues bcs1)
                i j = 0)
      ∧ (∀ d : Nat, bcHas (mergeBoundaryValues bcs0) d = true →
          assembleMatSingle A cells bcs0 bcs1 true d d = 1)
      ∧ (∀ r c : Nat, (r = c → bcHas (mergeBoundaryValues bcs0) r = false) →
          assembleMatSingle A cells bcs0 bcs1 true r c
            = assembleMatForm A cells (mergeBoundaryValues bcs0)
                (mergeBoundaryValues bcs1) r c)
      ∧ assembleMatSingle A cells bcs0 bcs1 false
          = assembleMatForm A cells (mergeBoundaryValues bcs0)
              (mergeBoundaryValues bcs1) := by
  refine ⟨?_, ?_, ?_, ?_, rfl⟩
  · intro c i j h
    unfold zeroBcRowsCols zeroBcRows
    rw [h]
    by_cases h1 : bcHas (mergeBoundaryValues bcs1) (c.dofs1.getD j 0) = true
    · rw [if_pos h1]
    · rw [if_neg h1, if_pos rfl]
  · intro c i j h
    unfold zeroBcRowsCols
    rw [if_pos h]
  · intro d h
    have hex : ∃ p ∈ mergeBoundaryValues bcs0, p.1 = d :=
      (bcHas_iff_exists (mergeBoundaryValues bcs0) d).mp h
    unfold assembleMatSingle
    rw [if_pos rfl]
    exact setUnitDiagonal_mem (mergeBoundaryValues bcs0) _ d hex
  · intro r c h
    unfold assembleMatSingle
    rw [if_pos rfl]
    apply setUnitDiagonal_untouched
    intro hrc p hp hpr
    have hfalse := h hrc
    have : bcHas (mergeBoundaryValues bcs0) r = true :=
      (bcHas_iff_exists (mergeBoundaryValues bcs0) r).mpr ⟨p, hp, hpr⟩
    rw [this] at hfalse
    exact absurd hfalse (by decide)

/-- C1 witness: the amended theorem applied at a concrete configuration
(one cell with test dofs `[5]`, boundary map `{5 ↦ 2}`, owned size
irrelevant). -/
theorem claim_C1_witness :
    (bcHas (mergeBoundaryValues [[(5, 2)]]) ((⟨[5], [7], fun _ _ => 3⟩ : MatCell).dofs0.getD 0 0) = true
        ∧ zeroBcRowsCols ⟨[5], [7], fun _ _ => 3⟩ (mergeBoundaryValues [[(5, 2)]])
            (mergeBoundaryValues []) 0 0 = 0)
      ∧ (bcHas (mergeBoundaryValues [[(5, 2)]]) 5 = true
        ∧ assembleMatSingle zeroMat [] [[(5, 2)]] [] true 5 5 = 1)
      ∧ ((0 = 1 → bcHas (mergeBoundaryValues [[(5, 2)]]) 0 = false)
        ∧ assembleMatSingle zeroMat [] [[(5, 2)]] [] true 0 1
            = assembleMatForm zeroMat [] (mergeBoundaryValues [[(5, 2)]])
                (mergeBoundaryValues []) 0 1) := by
  refine ⟨⟨by decide, ?_⟩, ⟨by decide, ?_⟩, ⟨by decide, ?_⟩⟩
  · exact (claim_C1 zeroMat [] [[(5, 2)]] []).1 ⟨[5], [7], fun _ _ => 3⟩ 0 0 (by decide)
  · exact (claim_C1 zeroMat [] [[(5, 2)]] []).2.2.1 5 (by decide)
  · exact (claim_C1 zeroMat [] [[(5, 2)]] []).2.2.2.1 0 1 (by decide)

/-- Folding last-write-wins updates from an arbitrary start value. -/
theorem lastPrescribed_foldl_init (d : Nat) :
    ∀ (pairs : List (Nat × Int)) (o : Option Int),
      pairs.foldl (fun acc p => if p.1 == d then some p.2 else acc) o
        = (lastPrescribedValue pairs d).or o := by
  intro pairs
  induction pairs with
  | nil => intro o; rfl
  | cons q rest ih =>
      intro o
      unfold lastPrescribedValue
      rw [List.foldl_cons, List.foldl_cons, ih, ih (if q.1 == d then some q.2 else none),
        Option.or_assoc]
      congr 1
      by_cases hq : (q.1 == d) = true
      · simp [hq]
      · simp [hq]

/-- Last-write-wins over a concatenation: the later segment wins. -/
theorem lastPrescribedValue_append (xs ys : List (Nat × Int)) (d : Nat) :
    lastPrescribedValue (xs ++ ys) d
      = (lastPrescribedValue ys d).or (lastPrescribedValue xs d) := by
  unfold lastPrescribedValue
  rw [List.foldl_append]
  exact lastPrescribed_foldl_init d ys _

/-- Lookup after folding key-overwriting insertions equals the
last-write-wins value of the inserted pairs, falling back to the
accumulator. -/
theorem bcFind_insert_fold (d : Nat) :
    ∀ (pairs : List (Nat × Int)) (acc : BCMap),
      bcFind (pairs.foldl (fun a p => bcInsert a p.1 p.2) acc) d
        = (lastPrescribedValue pairs d).or (bcFind acc d) := by
  intro pairs
  induction pairs with
  | nil => intro acc; rfl
  | cons q rest ih =>
      intro acc
      rw [List.foldl_cons, ih]
      unfold lastPrescribedValue
      rw [List.foldl_cons, lastPrescribed_foldl_init d rest
        (if q.1 == d then some q.2 else none), Option.or_assoc]
      congr 1
      rw [bcFind_bcInsert]
      by_cases hq : q.1 = d
      · simp [hq]
      · have h1 : (q.1 == d) = false := beq_eq_false_iff_ne.mpr hq
        have h2 : ¬ d = q.1 := fun hc => hq hc.symm
        simp [h1, h2]

/-- Lookup in the merged boundary-value map is last-write-wins over the
concatenated per-condition maps, in input-list order. -/
theorem bcFind_merge (bcs : List BCMap) (d : Nat) :
    bcFind (mergeBoundaryValues bcs) d = lastPrescribedValue bcs.flatten d := by
  unfold mergeBoundaryValues
  suffices h : ∀ acc : BCMap,
      bcFind (bcs.foldl
          (fun acc bc => bc.foldl (fun a p => bcInsert a p.1 p.2) acc) acc) d
        = (lastPrescribedValue bcs.flatten d).or (bcFind acc d) by
    have h2 := h []
    have h3 : bcFind ([] : BCMap) d = none := rfl
    rw [h3, Option.or_none] at h2
    exact h2
  induction bcs with
  | nil => intro acc; rfl
  | cons bc rest ih =>
      intro acc
      rw [List.foldl_cons, ih, bcFind_insert_fold,
        show (bc :: rest).flatten = bc ++ rest.flatten from rfl,
        lastPrescribedValue_append, Option.or_assoc]

/-- Positions hit by no in-range map entry are untouched by the
boundary-overwrite fold. -/
theorem setbcFold_untouched (offset size x : Nat) :
    ∀ (l : List (Nat × Int)) (b : Vec),
      (∀ p ∈ l, p.1 < size → offset + p.1 ≠ x) →
        l.foldl (fun acc p =>
            if p.1 < size then vecSetAt acc (offset + p.1) p.2 else acc) b x
          = b x := by
  intro l
  induction l with
  | nil => intro b _; rfl
  | cons q rest ih =>
      intro b h
      rw [List.foldl_cons, ih _ (fun p hp => h p (List.mem_cons_of_mem q hp))]
      by_cases hq : q.1 < size
      · rw [if_pos hq]
        unfold vecSetAt
        rw [if_neg (fun hx => h q (List.mem_cons_self q rest) hq hx.symm)]
      · rw [if_neg hq]

/-- A value all remaining writes agree with is preserved by the
boundary-overwrite fold. -/
theorem setbcFold_preserved (offset size x : Nat) (g : Int) :
    ∀ (l : List (Nat × Int)) (b : Vec),
      b x = g → (∀ p ∈ l, offset + p.1 = x → p.2 = g) →
        l.foldl (fun acc p =>
            if p.1 < size then vecSetAt acc (offset + p.1) p.2 else acc) b x
          = g := by
  intro l
  induction l with
  | nil => intro b hb _; exact hb
  | cons q rest ih =>
      intro b hb h
      rw [List.foldl_cons]
      apply ih
      · by_cases hq : q.1 < size
        · rw [if_pos hq]
          unfold vecSetAt
          by_cases hx : x = offset + q.1
          · rw [if_pos hx]
            exact h q (List.mem_cons_self q rest) hx.symm
          · rw [if_neg hx]
            exact hb
        · rw [if_neg hq]
          exact hb
      · exact fun p hp => h p (List.mem_cons_of_mem q hp)

/-- An in-range entry whose key determines its value uniquely ends up
written at its position by the boundary-overwrite fold. -/
theorem setbcFold_value (offset size d : Nat) (g : Int) :
    ∀ (l : List (Nat × Int)) (b : Vec),
      (d, g) ∈ l → d < size → (∀ p ∈ l, p.1 = d → p.2 = g) →
        l.foldl (fun acc p =>
            if p.1 < size then vecSetAt acc (offset + p.1) p.2 else acc) b
            (offset + d)
          = g := by
  intro l
  induction l with
  | nil => intro b hm; simp at hm
  | cons q rest ih =>
      intro b hm hd huniq
      rw [List.foldl_cons]
      by_cases hq : q.1 = d
      · apply setbcFold_preserved
        · have hq2 : q.2 = g := huniq q (List.mem_cons_self q rest) hq
          rw [hq, if_pos hd, hq2]
          unfold vecSetAt
          rw [if_pos rfl]
        · intro p hp hpx
          exact huniq p (List.mem_cons_of_mem q hp) (by omega)
      · rcases List.mem_cons.mp hm with hqm | hqm
        · exact absurd (congrArg Prod.fst hqm.symm) hq
        · exact ih _ hqm hd (fun p hp => huniq p (List.mem_cons_of_mem q hp))

/-- `set_bc` on a view writes the exact prescribed value of every
in-range dof of the merged map. -/
theorem setBcAt_prescribed (b : Vec) (offset size : Nat) (bcs : List BCMap)
    (d : Nat) (g : Int) (hfind : bcFind (mergeBoundaryValues bcs) d = some g)
    (hd : d < size) : setBcAt b offset size bcs (offset + d) = g := by
  unfold setBcAt
  apply setbcFold_value
  · exact bcFind_eq_some_mem _ d g hfind
  · exact hd
  · intro p hp hpd
    exact bc_val_unique d g (mergeBoundaryValues bcs) (nodup_keys_merge bcs)
      (bcFind_eq_some_mem _ d g hfind) p hp hpd

/-- `set_bc` on a view leaves positions of unprescribed dofs alone. -/
theorem setBcAt_unprescribed (b : Vec) (offset size : Nat) (bcs : List BCMap)
    (x : Nat)
    (h : ∀ p ∈ mergeBoundaryValues bcs, p.1 < size → offset + p.1 ≠ x) :
    setBcAt b offset size bcs x = b x := by
  unfold setBcAt
  exact setbcFold_untouched offset size x _ b h

/-- The single-block vector pipeline delivers the exact prescribed value
at every owned prescribed dof, whatever the ghost contributions are. -/
theorem vecPipeline_prescribed (cells : List VecCell) (ownedSize : Nat)
    (incoming : Nat → Int) (bcs : List BCMap) (d : Nat) (g : Int)
    (hfind : bcFind (mergeBoundaryValues bcs) d = some g)
    (hd : d < ownedSize) :
    assembleVecSingle cells ownedSize incoming bcs d = g := by
  unfold assembleVecSingle set_bc
  have h := setBcAt_prescribed
    (ghostReduce (assembleVecForm zeroVec cells) ownedSize incoming)
    0 ownedSize bcs d g hfind hd
  rwa [Nat.zero_add] at h

/-- The single-block vector pipeline leaves owned unprescribed dofs at
local contribution plus reduced ghost contribution. -/
theorem vecPipeline_unprescribed (cells : List VecCell) (ownedSize : Nat)
    (incoming : Nat → Int) (bcs : List BCMap) (d : Nat)
    (hfind : bcFind (mergeBoundaryValues bcs) d = none) (hd : d < ownedSize) :
    assembleVecSingle cells ownedSize incoming bcs d
      = assembleVecForm zeroVec cells d + incoming d := by
  unfold assembleVecSingle set_bc
  rw [setBcAt_unprescribed]
  · unfold ghostReduce
    rw [if_pos hd]
  · intro p hp _ hx
    exact bcFind_eq_none_not_key _ d hfind p hp (by omega)

/-- The nested vector branch treats block `i` by the single-block
pipeline. -/
theorem assembleVecNest_getD (blocks : List VecBlockData)
    (incoming : Nat → Nat → Int) (i : Nat) (h : i < blocks.length) :
    (assembleVecNest blocks incoming).getD i zeroVec
      = assembleVecSingle (blocks.getD i ⟨[], 0, 0, []⟩).cells
          (blocks.getD i ⟨[], 0, 0, []⟩).ownedSize (incoming i)
          (blocks.getD i ⟨[], 0, 0, []⟩).bcs := by
  unfold assembleVecNest assembleVecSingle
  rw [List.getD_eq_getElem?_getD, List.getElem?_map, List.getElem?_range h]
  rfl

/-- The per-block boundary-overwrite loop never writes below its running
offset. -/
theorem monoSetBcLoop_low :
    ∀ (blocks : List VecBlockData) (off : Nat) (b : Vec) (x : Nat),
      x < off → monoVecSetBcLoop blocks off b x = b x := by
  intro blocks
  induction blocks with
  | nil => intro off b x _; rfl
  | cons blk rest ih =>
      intro off b x hx
      unfold monoVecSetBcLoop
      rw [ih (off + blk.ownedSize) _ x (by omega)]
      apply setBcAt_unprescribed
      intro p hp _
      omega

/-- The owned offset of the first block is zero. -/
theorem ownedOffset_zero (blk : VecBlockData) (rest : List VecBlockData) :
    ownedOffset (blk :: rest) 0 = 0 := rfl

/-- The owned offset of a later block steps over the head block. -/
theorem ownedOffset_succ (blk : VecBlockData) (rest : List VecBlockData)
    (i : Nat) :
    ownedOffset (blk :: rest) (i + 1) = blk.ownedSize + ownedOffset rest i := by
  simp [ownedOffset]

/-- The per-block boundary-overwrite loop writes block `i`'s prescribed
values at its owned offset. -/
theorem monoSetBcLoop_value :
    ∀ (blocks : List VecBlockData) (i off : Nat) (b : Vec) (d : Nat) (g : Int),
      i < blocks.length →
      bcFind (mergeBoundaryValues (blocks.getD i ⟨[], 0, 0, []⟩).bcs) d = some g →
      d < (blocks.getD i ⟨[], 0, 0, []⟩).ownedSize →
      monoVecSetBcLoop blocks off b (off + ownedOffset blocks i + d) = g := by
  intro blocks
  induction blocks with
  | nil => intro i off b d g hi; exact absurd hi (by simp)
  | cons blk rest ih =>
      intro i off b d g hi hfind hd
      match i with
      | 0 =>
          unfold monoVecSetBcLoop
          rw [ownedOffset_zero]
          have hd0 : d < blk.ownedSize := by simpa using hd
          have hlt : off + 0 + d < off + blk.ownedSize := by omega
          rw [monoSetBcLoop_low rest (off + blk.ownedSize) _ _ hlt]
          have harith : off + 0 + d = off + d := by omega
          rw [harith]
          exact setBcAt_prescribed b off blk.ownedSize blk.bcs d g
            (by simpa using hfind) hd0
      | i + 1 =>
          unfold monoVecSetBcLoop
          rw [ownedOffset_succ]
          have harith : off + (blk.ownedSize + ownedOffset rest i) + d
              = off + blk.ownedSize + ownedOffset rest i + d := by omega
          rw [harith]
          exact ih i (off + blk.ownedSize) _ d g (by simpa using hi)
            (by simpa using hfind) (by simpa using hd)

/-- The monolithic vector branch delivers the exact prescribed value at
every owned prescribed dof of every block. -/
theorem assembleVecMono_prescribed (blocks : List VecBlockData)
    (incoming : Nat → Int) (i d : Nat) (g : Int) (hi : i < blocks.length)
    (hfind : bcFind (mergeBoundaryValues
        (blocks.getD i ⟨[], 0, 0, []⟩).bcs) d = some g)
    (hd : d < (blocks.getD i ⟨[], 0, 0, []⟩).ownedSize) :
    assembleVecMono blocks incoming (ownedOffset blocks i + d) = g := by
  unfold assembleVecMono
  have h := monoSetBcLoop_value blocks i 0
    (ghostReduce (monoVecCopyLoop (totalOwned blocks) blocks 0 0 zeroVec)
      (totalOwned blocks) incoming)
    d g hi hfind hd
  rwa [Nat.zero_add] at h

/-- C2.  In every vector-assembly topology branch (single, nested,
monolithic-block) the ghost reduction precedes the boundary overwrite
and the overwrite is an assignment: every prescribed dof inside the
owned segment ends at exactly its prescribed value, for **every**
choice of incoming ghost contributions; owned unprescribed dofs end at
local contribution plus reduced ghost contribution; and the merged
boundary map resolves conflicts last-write-wins in input-list order. -/
theorem claim_C2 (cells : List VecCell) (ownedSize : Nat) (incoming : Nat → Int)
    (bcs : List BCMap) (blocks : List VecBlockData)
    (nestIncoming : Nat → Nat → Int) (monoIncoming : Nat → Int)
    (i d : Nat) (g : Int) :
    (bcFind (mergeBoundaryValues bcs) d = some g → d < ownedSize →
        assembleVecSingle cells ownedSize incoming bcs d = g)
      ∧ (bcFind (mergeBoundaryValues bcs) d = none → d < ownedSize →
          assembleVecSingle cells ownedSize incoming bcs d
            = assembleVecForm zeroVec cells d + incoming d)
      ∧ (i < blocks.length →
          bcFind (mergeBoundaryValues (blocks.getD i ⟨[], 0, 0, []⟩).bcs) d
              = some g →
          d < (blocks.getD i ⟨[], 0, 0, []⟩).ownedSize →
            (assembleVecNest blocks nestIncoming).getD i zeroVec d = g)
      ∧ (i < blocks.length →
          bcFind (mergeBoundaryValues (blocks.getD i ⟨[], 0, 0, []⟩).bcs) d
              = some g →
          d < (blocks.getD i ⟨[], 0, 0, []⟩).ownedSize →
            assembleVecMono blocks monoIncoming (ownedOffset blocks i + d) = g)
      ∧ bcFind (mergeBoundaryValues bcs) d = lastPrescribedValue bcs.flatten d := by
  refine ⟨?_, ?_, ?_, ?_, bcFind_merge bcs d⟩
  · exact fun h1 h2 => vecPipeline_prescribed cells ownedSize incoming bcs d g h1 h2
  · exact fun h1 h2 => vecPipeline_unprescribed cells ownedSize incoming bcs d h1 h2
  · intro h1 h2 h3
    rw [assembleVecNest_getD blocks nestIncoming i h1]
    exact vecPipeline_prescribed _ _ _ _ d g h2 h3
  · exact fun h1 h2 h3 =>
      assembleVecMono_prescribed blocks monoIncoming i d g h1 h2 h3

/-- C2 witness: the theorem applied at concrete configurations — dof 0
prescribed twice (5, then 7) ends at 7 in the single branch; dof 1 is
unprescribed and keeps local + ghost contribution; block 1 of the
two-block configuration ends at its prescribed 3 in both the nested and
the monolithic branch. -/
theorem claim_C2_witness :
    (bcFind (mergeBoundaryValues bcsC2) 0 = some 7
        ∧ (0 : Nat) < 2
        ∧ assembleVecSingle cellsC2 2 (fun _ => 10) bcsC2 0 = 7)
      ∧ (bcFind (mergeBoundaryValues bcsC2) 1 = none
        ∧ assembleVecSingle cellsC2 2 (fun _ => 10) bcsC2 1
            = assembleVecForm zeroVec cellsC2 1 + (fun _ => (10 : Int)) 1)
      ∧ ((1 : Nat) < blocksC2.length
        ∧ (assembleVecNest blocksC2 (fun _ _ => 10)).getD 1 zeroVec 0 = 3)
      ∧ assembleVecMono blocksC2 (fun _ => 10) (ownedOffset blocksC2 1 + 0) = 3 := by
  refine ⟨⟨by decide, by decide, ?_⟩, ⟨by decide, ?_⟩, ⟨by decide, ?_⟩, ?_⟩
  · exact (claim_C2 cellsC2 2 (fun _ => 10) bcsC2 [] (fun _ _ => 0) (fun _ => 0)
      0 0 7).1 (by decide) (by decide)
  · exact (claim_C2 cellsC2 2 (fun _ => 10) bcsC2 [] (fun _ _ => 0) (fun _ => 0)
      0 1 7).2.1 (by decide) (by decide)
  · exact (claim_C2 [] 0 (fun _ => 0) [] blocksC2 (fun _ _ => 10) (fun _ => 0)
      1 0 3).2.2.1 (by decide) (by decide) (by decide)
  · exact (claim_C2 [] 0 (fun _ => 0) [] blocksC2 (fun _ _ => 0) (fun _ => 10)
      1 0 3).2.2.2.1 (by decide) (by decide) (by decide)

/-- A cell-loop insertion event is never one of the `set_local` diagonal
events. -/
theorem assembleBlock_not_mem_setDiag_map (i j oR oC : Nat) (l : List Nat) :
    MatEvent.assembleBlock i j oR oC ∉ l.map MatEvent.setDiag := by
  intro h
  rw [List.mem_map] at h
  obtain ⟨d, _, hd⟩ := h
  exact MatEvent.noConfusion hd

/-- A cell-loop insertion event is never one of the `add_local` diagonal
events. -/
theorem assembleBlock_not_mem_addDiag_map (i j oR oC : Nat) (l : List Nat) :
    MatEvent.assembleBlock i j oR oC ∉ l.map MatEvent.addDiag := by
  intro h
  rw [List.mem_map] at h
  obtain ⟨d, _, hd⟩ := h
  exact MatEvent.noConfusion hd

/-- The insertions of one nested-branch block. -/
theorem mem_nestedBlockEvents (i j i' j' oR oC : Nat) (blk? : Option FormBlock) :
    MatEvent.assembleBlock i' j' oR oC ∈ nestedBlockEvents i j blk?
      ↔ (blk?.isSome = true ∧ i' = i ∧ j' = j ∧ oR = 0 ∧ oC = 0) := by
  cases blk? with
  | none => simp [nestedBlockEvents]
  | some blk =>
      constructor
      · intro h
        unfold nestedBlockEvents at h
        rcases List.mem_append.mp h with h1 | h1
        · rcases List.mem_cons.mp h1 with h2 | h2
          · injection h2 with e1 e2 e3 e4
            exact ⟨rfl, e1, e2, e3, e4⟩
          · rcases List.mem_cons.mp h2 with h3 | h3
            · exact absurd h3 (by intro hc; exact MatEvent.noConfusion hc)
            · simp at h3
        · by_cases hs : blk.spacesEq
          · rw [if_pos hs] at h1
            exact absurd h1 (assembleBlock_not_mem_setDiag_map i' j' oR oC _)
          · rw [if_neg hs] at h1
            simp at h1
      · rintro ⟨_, rfl, rfl, rfl, rfl⟩
        unfold nestedBlockEvents
        exact List.mem_append.mpr (Or.inl (List.mem_cons_self _ _))

/-- The insertions of one nested-branch row. -/
theorem mem_nestedRowEvents (i i' j' oR oC : Nat) :
    ∀ (row : List (Option FormBlock)) (j0 : Nat),
      MatEvent.assembleBlock i' j' oR oC ∈ nestedRowEvents i row j0
        ↔ (i' = i ∧ oR = 0 ∧ oC = 0
            ∧ ∃ k, k < row.length ∧ j' = j0 + k
                ∧ (row.getD k none).isSome = true) := by
  intro row
  induction row with
  | nil => intro j0; simp [nestedRowEvents]
  | cons blk? rest ih =>
      intro j0
      unfold nestedRowEvents
      rw [List.mem_append, mem_nestedBlockEvents, ih]
      constructor
      · rintro (⟨hsome, rfl, rfl, rfl, rfl⟩ | ⟨rfl, rfl, rfl, k, hk, rfl, hsome⟩)
        · exact ⟨rfl, rfl, rfl, 0, by simp, by omega, by simpa using hsome⟩
        · exact ⟨rfl, rfl, rfl, k + 1, by simpa using hk, by omega,
            by simpa using hsome⟩
      · rintro ⟨rfl, rfl, rfl, k, hk, rfl, hsome⟩
        match k with
        | 0 =>
            exact Or.inl ⟨by simpa using hsome, rfl, by omega, rfl, rfl⟩
        | k + 1 =>
            exact Or.inr ⟨rfl, rfl, rfl, k, by simpa using hk, by omega,
              by simpa using hsome⟩

/-- The insertions of the whole nested branch. -/
theorem mem_nestedRowsEvents (i' j' oR oC : Nat) :
    ∀ (a : List (List (Option FormBlock))) (i0 : Nat),
      MatEvent.assembleBlock i' j' oR oC ∈ nestedRowsEvents a i0
        ↔ (oR = 0 ∧ oC = 0
            ∧ ∃ r, r < a.length ∧ i' = i0 + r
                ∧ ∃ k, k < (a.getD r []).length ∧ j' = k
                    ∧ ((a.getD r []).getD k none).isSome = true) := by
  intro a
  induction a with
  | nil => intro i0; simp [nestedRowsEvents]
  | cons row rest ih =>
      intro i0
      unfold nestedRowsEvents
      rw [List.mem_append, mem_nestedRowEvents, ih]
      constructor
      · rintro (h1 | h1)
        · obtain ⟨hi, hoR, hoC, k, hk, hj, hsome⟩ := h1
          exact ⟨hoR, hoC, 0, by simp, by omega, k, by simpa using hk, by omega,
            by simpa using hsome⟩
        · obtain ⟨hoR, hoC, r, hr, hi, k, hk, hj, hsome⟩ := h1
          exact ⟨hoR, hoC, r + 1, by simpa using hr, by omega, k,
            by simpa using hk, by omega, by simpa using hsome⟩
      · rintro ⟨hoR, hoC, r, hr, hi, k, hk, hj, hsome⟩
        cases r with
        | zero =>
            exact Or.inl ⟨by omega, hoR, hoC, k, by simpa using hk, by omega,
              by simpa using hsome⟩
        | succ r =>
            exact Or.inr ⟨hoR, hoC, r, by simpa using hr, by omega, k,
              by simpa using hk, by omega, by simpa using hsome⟩

/-- A row containing a null block makes the monolithic column loop
throw. -/
theorem monoRowLoop_err_of_none (i offRow : Nat) :
    ∀ (row : List (Option FormBlock)) (j0 offCol : Nat), none ∈ row →
      (monoRowLoop i offRow row j0 offCol).2
        = some "Null block not supported/tested yet." := by
  intro row
  induction row with
  | nil => intro j0 offCol h; simp at h
  | cons blk? rest ih =>
      intro j0 offCol h
      cases blk? with
      | none => rfl
      | some blk =>
          have hrest : none ∈ rest := by
            rcases List.mem_cons.mp h with hc | hc
            · exact absurd hc (by intro hc2; exact Option.noConfusion hc2)
            · exact hc
          unfold monoRowLoop
          exact ih (j0 + 1) (offCol + blk.map1.allSize) hrest

/-- A row without null blocks completes the monolithic column loop
without error. -/
theorem monoRowLoop_err_none (i offRow : Nat) :
    ∀ (row : List (Option FormBlock)) (j0 offCol : Nat), none ∉ row →
      (monoRowLoop i offRow row j0 offCol).2 = none := by
  intro row
  induction row with
  | nil => intro j0 offCol _; rfl
  | cons blk? rest ih =>
      intro j0 offCol h
      cases blk? with
      | none => exact absurd (List.mem_cons_self _ _) h
      | some blk =>
          unfold monoRowLoop
          exact ih (j0 + 1) (offCol + blk.map1.allSize)
            (fun hc => h (List.mem_cons_of_mem _ hc))

/-- Any null block anywhere makes the monolithic row loop report the
null-block error. -/
theorem monoRowsLoop_err_of_none :
    ∀ (a : List (List (Option FormBlock))) (i0 offRow : Nat),
      (∃ row ∈ a, none ∈ row) →
      (monoRowsLoop a i0 offRow).2
        = some "Null block not supported/tested yet." := by
  intro a
  induction a with
  | nil => intro i0 offRow h; simp at h
  | cons row rest ih =>
      intro i0 offRow h
      by_cases hr : none ∈ row
      · have herr := monoRowLoop_err_of_none i0 offRow row 0 0 hr
        simp only [monoRowsLoop]
        rw [herr]
      · obtain ⟨row2, hrow2, hnone2⟩ := h
        have hrow2' : row2 ∈ rest := by
          rcases List.mem_cons.mp hrow2 with hc | hc
          · exact absurd (hc ▸ hnone2) hr
          · exact hc
        have hok := monoRowLoop_err_none i0 offRow row 0 0 hr
        simp only [monoRowsLoop]
        rw [hok]
        exact ih (i0 + 1) _ ⟨row2, hrow2', hnone2⟩

/-- C4.  During block matrix assembly a null block is silently skipped
under nested topology — no event is emitted for it, no error is raised,
and every non-null sibling block is still assembled — whereas under
monolithic topology any null block raises the fatal
"Null block not supported/tested yet." error. -/
theorem claim_C4 (a : List (List (Option FormBlock))) :
    (nestedAssemble a).2 = none
      ∧ (∀ i j, blockAt a i j = some none →
          ∀ oR oC, MatEvent.assembleBlock i j oR oC ∉ (nestedAssemble a).1)
      ∧ (∀ i j blk, blockAt a i j = some (some blk) →
          MatEvent.assembleBlock i j 0 0 ∈ (nestedAssemble a).1)
      ∧ (∀ i j, blockAt a i j = some none →
          (monoAssemble a).2 = some "Null block not supported/tested yet.") := by
  refine ⟨rfl, ?_, ?_, ?_⟩
  · intro i j hnull oR oC hmem
    unfold blockAt at hnull
    rw [if_pos] at hnull
    · have hget : (a.getD i []).getD j none = none := by
        injection hnull
      unfold nestedAssemble at hmem
      rcases List.mem_append.mp hmem with h1 | h1
      · rw [mem_nestedRowsEvents] at h1
        obtain ⟨_, _, r, hr, hir, k, hk, hjk, hsome⟩ := h1
        have hri : r = i := by omega
        have hkj : k = j := by omega
        rw [hri, hkj, hget] at hsome
        simp at hsome
      · rcases List.mem_cons.mp h1 with h2 | h2
        · exact MatEvent.noConfusion h2
        · simp at h2
    · by_contra hc
      rw [if_neg hc] at hnull
      exact Option.noConfusion hnull
  · intro i j blk hsome
    unfold blockAt at hsome
    by_cases hlt : i < a.length ∧ j < (a.getD i []).length
    · rw [if_pos hlt] at hsome
      have hget : (a.getD i []).getD j none = some blk := by
        injection hsome
      unfold nestedAssemble
      apply List.mem_append.mpr
      left
      rw [mem_nestedRowsEvents]
      exact ⟨rfl, rfl, i, hlt.1, by omega, j, hlt.2, rfl, by rw [hget]; rfl⟩
    · rw [if_neg hlt] at hsome
      exact Option.noConfusion hsome
  · intro i j hnull
    unfold blockAt at hnull
    by_cases hlt : i < a.length ∧ j < (a.getD i []).length
    · rw [if_pos hlt] at hnull
      have hget : (a.getD i []).getD j none = none := by
        injection hnull
      have hnone : none ∈ a.getD i [] := by
        rw [← hget, List.getD_eq_getElem (a.getD i []) none hlt.2]
        exact List.getElem_mem hlt.2
      have hrow : a.getD i [] ∈ a := by
        rw [List.getD_eq_getElem a [] hlt.1]
        exact List.getElem_mem hlt.1
      have herr := monoRowsLoop_err_of_none a 0 0 ⟨a.getD i [], hrow, hnone⟩
      simp only [monoAssemble]
      rw [herr]
    · rw [if_neg hlt] at hnull
      exact Option.noConfusion hnull

/-- C4 witness: the theorem applied to the concrete 1×2 array with a
null second block. -/
theorem claim_C4_witness :
    (blockAt aNullSecond 0 1 = some none
        ∧ MatEvent.assembleBlock 0 1 0 0 ∉ (nestedAssemble aNullSecond).1)
      ∧ (blockAt aNullSecond 0 0 = some (some blkGhost)
        ∧ MatEvent.assembleBlock 0 0 0 0 ∈ (nestedAssemble aNullSecond).1)
      ∧ (monoAssemble aNullSecond).2
          = some "Null block not supported/tested yet." := by
  refine ⟨⟨by decide, ?_⟩, ⟨by decide, ?_⟩, ?_⟩
  · exact (claim_C4 aNullSecond).2.1 0 1 (by decide) 0 0
  · exact (claim_C4 aNullSecond).2.2.1 0 0 blkGhost (by decide)
  · exact (claim_C4 aNullSecond).2.2.2 0 1 (by decide)

/-- The offsets of the insertions emitted by the monolithic column
loop: the row offset it was invoked with, and the starting column
offset advanced by the `ALL` sizes of the preceding blocks of the
row. -/
theorem monoRowLoop_mem (i offRow i' j' oR oC : Nat) :
    ∀ (row : List (Option FormBlock)) (j0 offCol0 : Nat),
      MatEvent.assembleBlock i' j' oR oC ∈ (monoRowLoop i offRow row j0 offCol0).1 →
        i' = i ∧ oR = offRow
          ∧ ∃ k, k < row.length ∧ j' = j0 + k
              ∧ oC = offCol0 + ((row.take k).map colWeightAll).sum := by
  intro row
  induction row with
  | nil => intro j0 offCol0 h; simp [monoRowLoop] at h
  | cons blk? rest ih =>
      intro j0 offCol0 h
      cases blk? with
      | none => simp [monoRowLoop] at h
      | some blk =>
          unfold monoRowLoop at h
          rcases List.mem_append.mp h with h1 | h1
          · rcases List.mem_cons.mp h1 with h2 | h2
            · injection h2 with e1 e2 e3 e4
              refine ⟨e1, e3, 0, by simp, by omega, by simp; omega⟩
            · rcases List.mem_cons.mp h2 with h3 | h3
              · exact absurd h3 (by intro hc; exact MatEvent.noConfusion hc)
              · exfalso
                by_cases hs : blk.spacesEq
                · rw [if_pos hs] at h3
                  exact assembleBlock_not_mem_addDiag_map i' j' oR oC _ h3
                · rw [if_neg hs] at h3
                  simp at h3
          · obtain ⟨e1, e2, k, hk, hj, hoC⟩ :=
              ih (j0 + 1) (offCol0 + blk.map1.allSize) h1
            refine ⟨e1, e2, k + 1, by simpa using hk, by omega, ?_⟩
            rw [hoC, List.take_succ_cons, List.map_cons, List.sum_cons]
            simp only [colWeightAll]
            omega

/-- The offsets of the insertions emitted by the monolithic row loop:
prefix sums of `ALL` sizes over preceding rows and preceding columns. -/
theorem monoRowsLoop_mem (i' j' oR oC : Nat) :
    ∀ (a : List (List (Option FormBlock))) (i0 offRow0 : Nat),
      MatEvent.assembleBlock i' j' oR oC ∈ (monoRowsLoop a i0 offRow0).1 →
        ∃ r, r < a.length ∧ i' = i0 + r
          ∧ oR = offRow0 + ((a.take r).map rowWeightAll).sum
          ∧ ∃ k, k < (a.getD r []).length ∧ j' = k
              ∧ oC = (((a.getD r []).take k).map colWeightAll).sum := by
  intro a
  induction a with
  | nil => intro i0 offRow0 h; simp [monoRowsLoop] at h
  | cons row rest ih =>
      intro i0 offRow0 h
      simp only [monoRowsLoop] at h
      rcases herr : (monoRowLoop i0 offRow0 row 0 0).2 with _ | e
      · rw [herr] at h
        rcases List.mem_append.mp h with h1 | h1
        · obtain ⟨e1, e2, k, hk, hj, hoC⟩ := monoRowLoop_mem i0 offRow0 i' j' oR oC
            row 0 0 h1
          exact ⟨0, by simp, by omega, by simpa using e2, k, by simpa using hk,
            by omega, by simpa using hoC⟩
        · obtain ⟨r, hr, hi, hoR, k, hk, hj, hoC⟩ := ih (i0 + 1) _ h1
          refine ⟨r + 1, by simpa using hr, by omega, ?_, k, by simpa using hk,
            by omega, by simpa using hoC⟩
          rw [hoR, List.take_succ_cons, List.map_cons, List.sum_cons]
          omega
      · rw [herr] at h
        obtain ⟨e1, e2, k, hk, hj, hoC⟩ := monoRowLoop_mem i0 offRow0 i' j' oR oC
          row 0 0 h
        exact ⟨0, by simp, by omega, by simpa using e2, k, by simpa using hk,
          by omega, by simpa using hoC⟩

/-- C5 (amended).  Every insertion offset the monolithic branch uses for
block `(i, j)` equals the prefix sum of the **`ALL` (owned + ghost)**
sizes of the index maps of the preceding row blocks (row offset) and of
the preceding column blocks of row `i` (column offset) — not of the
owned sizes alone, as the claim states. -/
theorem claim_C5 (a : List (List (Option FormBlock))) (i j oR oC : Nat)
    (h : MatEvent.assembleBlock i j oR oC ∈ (monoAssemble a).1) :
    oR = rowOffsetAll a i ∧ oC = colOffsetAll a i j := by
  have hmem : MatEvent.assembleBlock i j oR oC ∈ (monoRowsLoop a 0 0).1 := by
    simp only [monoAssemble] at h
    rcases herr : (monoRowsLoop a 0 0).2 with _ | e
    · rw [herr] at h
      rcases List.mem_append.mp h with h1 | h1
      · exact h1
      · rcases List.mem_cons.mp h1 with h2 | h2
        · exact absurd h2 (by intro hc; exact MatEvent.noConfusion hc)
        · rcases List.mem_cons.mp h2 with h3 | h3
          · exact absurd h3 (by intro hc; exact MatEvent.noConfusion hc)
          · simp at h3
    · rw [herr] at h
      exact h
  obtain ⟨r, hr, hi, hoR, k, hk, hj, hoC⟩ := monoRowsLoop_mem i j oR oC a 0 0 hmem
  have hri : r = i := by omega
  have hkj : k = j := by omega
  subst hri
  subst hkj
  constructor
  · rw [hoR]
    unfold rowOffsetAll
    omega
  · rw [hoC]
    unfold colOffsetAll
    rfl

/-- C5 witness: the amended theorem applied at the concrete array
`aGhost`, whose recorded column offset for block `(0, 1)` is `5`. -/
theorem claim_C5_witness :
    MatEvent.assembleBlock 0 1 0 5 ∈ (monoAssemble aGhost).1
      ∧ (0 = rowOffsetAll aGhost 0 ∧ 5 = colOffsetAll aGhost 0 1) := by
  refine ⟨by decide, ?_⟩
  exact claim_C5 aGhost 0 1 0 5 (by decide)

/-- C8 (amended).  The vector-assembly structural check for null
linear-form blocks fires before any branch runs, so an erroring vector
call performs no container operation; under monolithic matrix
topology, however, the null-block error is raised only when the null
block is reached in the row-major scan, so a non-null block preceding
it has already been assembled, flushed and (if applicable) given its
diagonal entries — the container is not unchanged on that error. -/
theorem claim_C8 (l : List (Option Unit)) (blk : FormBlock)
    (row : List (Option FormBlock)) (rows : List (List (Option FormBlock))) :
    (l.any (fun blk? => blk?.isNone) = true →
        vecEntryCheck l = ([], some "Cannot have NULL linear form block."))
      ∧ (vecEntryCheck l).1 = []
      ∧ (monoAssemble ((some blk :: none :: row) :: rows)).2
          = some "Null block not supported/tested yet."
      ∧ MatEvent.assembleBlock 0 0 0 0
          ∈ (monoAssemble ((some blk :: none :: row) :: rows)).1 := by
  have hloop : monoRowLoop 0 0 (some blk :: none :: row) 0 0
      = (([MatEvent.assembleBlock 0 0 0 0, MatEvent.flush]
            ++ (if blk.spacesEq then
                  (blk.bcdofs.filter (fun d => d < blk.map0.ownedSize)).map
                    MatEvent.addDiag
                else [])),
          some "Null block not supported/tested yet.") := by
    unfold monoRowLoop
    simp [monoRowLoop]
  refine ⟨?_, ?_, ?_, ?_⟩
  · intro h
    unfold vecEntryCheck
    rw [if_pos h]
  · unfold vecEntryCheck
    split <;> rfl
  · simp only [monoAssemble, monoRowsLoop, hloop]
  · simp only [monoAssemble, monoRowsLoop, hloop]
    simp

/-- C8 witness: the theorem applied at a one-element null linear-form
array and the concrete block array whose first block is non-null. -/
theorem claim_C8_witness :
    ([(none : Option Unit)].any (fun blk? => blk?.isNone) = true
        ∧ vecEntryCheck [(none : Option Unit)]
            = ([], some "Cannot have NULL linear form block."))
      ∧ (monoAssemble [[some blkGhost, none]]).2
          = some "Null block not supported/tested yet."
      ∧ MatEvent.assembleBlock 0 0 0 0
          ∈ (monoAssemble [[some blkGhost, none]]).1 := by
  refine ⟨⟨by decide, ?_⟩, ?_, ?_⟩
  · exact (claim_C8 [none] blkGhost [] []).1 (by decide)
  · exact (claim_C8 [none] blkGhost [] []).2.2.1
  · exact (claim_C8 [none] blkGhost [] []).2.2.2

/-- Scanning a concatenation: discipline holds exactly when it holds of
the first part and of the second part started in the resulting pending
state. -/
theorem flushDisciplineFrom_append :
    ∀ (xs ys : List MatEvent) (p : Bool),
      flushDisciplineFrom (xs ++ ys) p
        = (flushDisciplineFrom xs p
            && flushDisciplineFrom ys (pendingAfter xs p)) := by
  intro xs
  induction xs with
  | nil => intro ys p; simp [flushDisciplineFrom, pendingAfter]
  | cons e rest ih =>
      intro ys p
      cases e <;>
        simp [flushDisciplineFrom, pendingAfter, ih, Bool.and_assoc]

/-- Pending state over a concatenation. -/
theorem pendingAfter_append :
    ∀ (xs ys : List MatEvent) (p : Bool),
      pendingAfter (xs ++ ys) p = pendingAfter ys (pendingAfter xs p) := by
  intro xs
  induction xs with
  | nil => intro ys p; rfl
  | cons e rest ih =>
      intro ys p
      cases e <;> simp [pendingAfter, ih]

/-- `FINAL` count over a concatenation. -/
theorem countFinal_append (xs ys : List MatEvent) :
    countFinal (xs ++ ys) = countFinal xs + countFinal ys := by
  unfold countFinal
  rw [List.filter_append, List.length_append]

/-- A run of `set_local` diagonal events is discipline-clean from a
flushed state and leaves the state flushed, and contains no `FINAL`. -/
theorem setDiag_map_ok (l : List Nat) :
    flushDisciplineFrom (l.map MatEvent.setDiag) false = true
      ∧ pendingAfter (l.map MatEvent.setDiag) false = false
      ∧ countFinal (l.map MatEvent.setDiag) = 0 := by
  induction l with
  | nil => exact ⟨rfl, rfl, rfl⟩
  | cons d rest ih =>
      refine ⟨ih.1, ih.2.1, ?_⟩
      simp [countFinal, List.filter_cons]

/-- A run of `add_local` diagonal events is discipline-clean from a
flushed state and leaves the state flushed, and contains no `FINAL`. -/
theorem addDiag_map_ok (l : List Nat) :
    flushDisciplineFrom (l.map MatEvent.addDiag) false = true
      ∧ pendingAfter (l.map MatEvent.addDiag) false = false
      ∧ countFinal (l.map MatEvent.addDiag) = 0 := by
  induction l with
  | nil => exact ⟨rfl, rfl, rfl⟩
  | cons d rest ih =>
      refine ⟨ih.1, ih.2.1, ?_⟩
      simp [countFinal, List.filter_cons]

/-- One nested-branch block segment is discipline-clean from any state,
flushes the state, and applies no `FINAL`. -/
theorem nestedBlockEvents_ok (i j : Nat) (blk? : Option FormBlock) (p : Bool) :
    flushDisciplineFrom (nestedBlockEvents i j blk?) p = true
      ∧ (pendingAfter (nestedBlockEvents i j blk?) p = false
          ∨ pendingAfter (nestedBlockEvents i j blk?) p = p)
      ∧ countFinal (nestedBlockEvents i j blk?) = 0 := by
  cases blk? with
  | none => exact ⟨rfl, Or.inr rfl, rfl⟩
  | some blk =>
      simp only [nestedBlockEvents]
      by_cases hs : blk.spacesEq
      · rw [if_pos hs]
        refine ⟨(setDiag_map_ok blk.bcdofs).1, Or.inl (setDiag_map_ok blk.bcdofs).2.1, ?_⟩
        simp [countFinal, List.filter_cons]
      · rw [if_neg hs]
        exact ⟨rfl, Or.inl rfl, rfl⟩

/-- A nested-branch row is discipline-clean and `FINAL`-free. -/
theorem nestedRowEvents_ok (i : Nat) :
    ∀ (row : List (Option FormBlock)) (j0 : Nat) (p : Bool),
      flushDisciplineFrom (nestedRowEvents i row j0) p = true
        ∧ (pendingAfter (nestedRowEvents i row j0) p = false
            ∨ pendingAfter (nestedRowEvents i row j0) p = p)
        ∧ countFinal (nestedRowEvents i row j0) = 0 := by
  intro row
  induction row with
  | nil => intro j0 p; exact ⟨rfl, Or.inr rfl, rfl⟩
  | cons blk? rest ih =>
      intro j0 p
      unfold nestedRowEvents
      obtain ⟨h1, h2, h3⟩ := nestedBlockEvents_ok i j0 blk? p
      obtain ⟨h4, h5, h6⟩ := ih (j0 + 1) (pendingAfter (nestedBlockEvents i j0 blk?) p)
      refine ⟨?_, ?_, ?_⟩
      · rw [flushDisciplineFrom_append, h1, h4]
        rfl
      · rw [pendingAfter_append]
        rcases h5 with h5 | h5
        · exact Or.inl h5
        · rw [h5]
          rcases h2 with h2 | h2
          · exact Or.inl h2
          · exact Or.inr h2
      · rw [countFinal_append, h3, h6]

/-- The nested branch's block loops are discipline-clean and
`FINAL`-free. -/
theorem nestedRowsEvents_ok :
    ∀ (a : List (List (Option FormBlock))) (i0 : Nat) (p : Bool),
      flushDisciplineFrom (nestedRowsEvents a i0) p = true
        ∧ (pendingAfter (nestedRowsEvents a i0) p = false
            ∨ pendingAfter (nestedRowsEvents a i0) p = p)
        ∧ countFinal (nestedRowsEvents a i0) = 0 := by
  intro a
  induction a with
  | nil => intro i0 p; exact ⟨rfl, Or.inr rfl, rfl⟩
  | cons row rest ih =>
      intro i0 p
      unfold nestedRowsEvents
      obtain ⟨h1, h2, h3⟩ := nestedRowEvents_ok i0 row 0 p
      obtain ⟨h4, h5, h6⟩ := ih (i0 + 1) (pendingAfter (nestedRowEvents i0 row 0) p)
      refine ⟨?_, ?_, ?_⟩
      · rw [flushDisciplineFrom_append, h1, h4]
        rfl
      · rw [pendingAfter_append]
        rcases h5 with h5 | h5
        · exact Or.inl h5
        · rw [h5]
          rcases h2 with h2 | h2
          · exact Or.inl h2
          · exact Or.inr h2
      · rw [countFinal_append, h3, h6]

/-- `countFinal` ignores a non-`FINAL` head event. -/
theorem countFinal_cons_ne (e : MatEvent) (t : List MatEvent)
    (h : (e == MatEvent.finalApply) = false) :
    countFinal (e :: t) = countFinal t := by
  unfold countFinal
  rw [List.filter_cons, h]
  simp

/-- `countFinal` counts a `FINAL` head event. -/
theorem countFinal_cons_final (t : List MatEvent) :
    countFinal (MatEvent.finalApply :: t) = countFinal t + 1 := by
  unfold countFinal
  rw [List.filter_cons]
  simp

/-- One `assemble`-`flush`-`diagonal` block segment followed by a clean
remainder: discipline-clean, leaves the state flushed, `FINAL`-free. -/
theorem blockSegment_ok (i j oR oC : Nat) (D R : List MatEvent) (p : Bool)
    (hD1 : flushDisciplineFrom D false = true)
    (hD2 : pendingAfter D false = false)
    (hR1 : flushDisciplineFrom R false = true)
    (hR2 : pendingAfter R false = false) :
    flushDisciplineFrom
        (MatEvent.assembleBlock i j oR oC :: MatEvent.flush :: (D ++ R)) p = true
      ∧ pendingAfter
          (MatEvent.assembleBlock i j oR oC :: MatEvent.flush :: (D ++ R)) p
            = false
      ∧ countFinal
          (MatEvent.assembleBlock i j oR oC :: MatEvent.flush :: (D ++ R))
        = countFinal D + countFinal R := by
  refine ⟨?_, ?_, ?_⟩
  · show flushDisciplineFrom (D ++ R) false = true
    rw [flushDisciplineFrom_append, hD1, hD2, hR1]
    rfl
  · show pendingAfter (D ++ R) false = false
    rw [pendingAfter_append, hD2, hR2]
  · rw [countFinal_cons_ne (MatEvent.assembleBlock i j oR oC) _ rfl,
      countFinal_cons_ne MatEvent.flush _ rfl, countFinal_append]

/-- The monolithic column loop's trace is discipline-clean, flushes the
pending state, and applies no `FINAL`. -/
theorem monoRowLoop_ok (i offRow : Nat) :
    ∀ (row : List (Option FormBlock)) (j0 offCol0 : Nat) (p : Bool),
      flushDisciplineFrom (monoRowLoop i offRow row j0 offCol0).1 p = true
        ∧ (pendingAfter (monoRowLoop i offRow row j0 offCol0).1 p = false
            ∨ pendingAfter (monoRowLoop i offRow row j0 offCol0).1 p = p)
        ∧ countFinal (monoRowLoop i offRow row j0 offCol0).1 = 0 := by
  intro row
  induction row with
  | nil => intro j0 offCol0 p; exact ⟨rfl, Or.inr rfl, rfl⟩
  | cons blk? rest ih =>
      intro j0 offCol0 p
      cases blk? with
      | none => exact ⟨rfl, Or.inr rfl, rfl⟩
      | some blk =>
          obtain ⟨h4, h5, h6⟩ := ih (j0 + 1) (offCol0 + blk.map1.allSize) false
          have h5' : pendingAfter
              (monoRowLoop i offRow rest (j0 + 1) (offCol0 + blk.map1.allSize)).1
                false = false := by
            rcases h5 with h5 | h5 <;> exact h5
          cases hs : blk.spacesEq with
          | true =>
              obtain key := blockSegment_ok i j0 offRow offCol0
                ((blk.bcdofs.filter (fun d => d < blk.map0.ownedSize)).map
                  MatEvent.addDiag)
                (monoRowLoop i offRow rest (j0 + 1) (offCol0 + blk.map1.allSize)).1
                p
                (addDiag_map_ok _).1 (addDiag_map_ok _).2.1 h4 h5'
              have hcount := key.2.2
              rw [(addDiag_map_ok ((blk.bcdofs.filter
                  (fun d => d < blk.map0.ownedSize)))).2.2, h6] at hcount
              simp only [monoRowLoop, hs, if_true]
              exact ⟨key.1, Or.inl key.2.1, hcount⟩
          | false =>
              obtain key := blockSegment_ok i j0 offRow offCol0 []
                (monoRowLoop i offRow rest (j0 + 1) (offCol0 + blk.map1.allSize)).1
                p rfl rfl h4 h5'
              have hcount := key.2.2
              rw [h6] at hcount
              simp only [monoRowLoop, hs, if_false]
              exact ⟨key.1, Or.inl key.2.1, hcount⟩

/-- Unfolding of the monolithic row loop when the head row succeeds. -/
theorem monoRowsLoop_cons_none (row : List (Option FormBlock))
    (rest : List (List (Option FormBlock))) (i0 offRow0 : Nat)
    (h : (monoRowLoop i0 offRow0 row 0 0).2 = none) :
    monoRowsLoop (row :: rest) i0 offRow0
      = ((monoRowLoop i0 offRow0 row 0 0).1
            ++ (monoRowsLoop rest (i0 + 1) (offRow0 + rowWeightAll row)).1,
          (monoRowsLoop rest (i0 + 1) (offRow0 + rowWeightAll row)).2) := by
  simp only [monoRowsLoop]
  rw [h]

/-- Unfolding of the monolithic row loop when the head row throws. -/
theorem monoRowsLoop_cons_some (row : List (Option FormBlock))
    (rest : List (List (Option FormBlock))) (i0 offRow0 : Nat) (e : String)
    (h : (monoRowLoop i0 offRow0 row 0 0).2 = some e) :
    monoRowsLoop (row :: rest) i0 offRow0
      = ((monoRowLoop i0 offRow0 row 0 0).1, some e) := by
  simp only [monoRowsLoop]
  rw [h]

/-- Unfolding of the monolithic branch when the loops succeed. -/
theorem monoAssemble_eq_none (a : List (List (Option FormBlock)))
    (h : (monoRowsLoop a 0 0).2 = none) :
    monoAssemble a
      = ((monoRowsLoop a 0 0).1
            ++ [MatEvent.finalApply, MatEvent.finalApply], none) := by
  simp only [monoAssemble]
  rw [h]

/-- Unfolding of the monolithic branch when the loops throw. -/
theorem monoAssemble_eq_some (a : List (List (Option FormBlock))) (e : String)
    (h : (monoRowsLoop a 0 0).2 = some e) :
    monoAssemble a = ((monoRowsLoop a 0 0).1, some e) := by
  simp only [monoAssemble]
  rw [h]

/-- The monolithic row loop's trace is discipline-clean and
`FINAL`-free. -/
theorem monoRowsLoop_ok :
    ∀ (a : List (List (Option FormBlock))) (i0 offRow0 : Nat) (p : Bool),
      flushDisciplineFrom (monoRowsLoop a i0 offRow0).1 p = true
        ∧ (pendingAfter (monoRowsLoop a i0 offRow0).1 p = false
            ∨ pendingAfter (monoRowsLoop a i0 offRow0).1 p = p)
        ∧ countFinal (monoRowsLoop a i0 offRow0).1 = 0 := by
  intro a
  induction a with
  | nil => intro i0 offRow0 p; exact ⟨rfl, Or.inr rfl, rfl⟩
  | cons row rest ih =>
      intro i0 offRow0 p
      obtain ⟨h1, h2, h3⟩ := monoRowLoop_ok i0 offRow0 row 0 0 p
      rcases herr : (monoRowLoop i0 offRow0 row 0 0).2 with _ | e
      · obtain ⟨h4, h5, h6⟩ := ih (i0 + 1) (offRow0 + rowWeightAll row)
          (pendingAfter (monoRowLoop i0 offRow0 row 0 0).1 p)
        rw [monoRowsLoop_cons_none row rest i0 offRow0 herr]
        refine ⟨?_, ?_, ?_⟩
        · rw [flushDisciplineFrom_append, h1, h4]
          rfl
        · rw [pendingAfter_append]
          rcases h5 with h5 | h5
          · exact Or.inl h5
          · rw [h5]
            rcases h2 with h2 | h2
            · exact Or.inl h2
            · exact Or.inr h2
        · rw [countFinal_append, h3, h6]
      · rw [monoRowsLoop_cons_some row rest i0 offRow0 e herr]
        exact ⟨h1, h2, h3⟩

/-- C9 (amended).  In every matrix-assembly branch an intermediate
flush separates the additive cell-loop insertions of each block from its
diagonal insertions (the trace-level flush discipline holds), and the
nested and single branches apply `FINAL` exactly once per call; the
monolithic branch, however, applies `FINAL` twice — once at the end of
the branch (line 235) and once unconditionally at line 275. -/
theorem claim_C9 (a : List (List (Option FormBlock))) (blk : FormBlock) :
    flushDisciplineFrom (nestedAssemble a).1 false = true
      ∧ flushDisciplineFrom (singleAssemble blk).1 false = true
      ∧ flushDisciplineFrom (monoAssemble a).1 false = true
      ∧ countFinal (nestedAssemble a).1 = 1
      ∧ countFinal (singleAssemble blk).1 = 1
      ∧ ((monoAssemble a).2 = none → countFinal (monoAssemble a).1 = 2) := by
  obtain ⟨hn1, hn2, hn3⟩ := nestedRowsEvents_ok a 0 false
  obtain ⟨hm1, hm2, hm3⟩ := monoRowsLoop_ok a 0 0 false
  have hsingle : ∀ D : List MatEvent,
      flushDisciplineFrom D false = true → pendingAfter D false = false →
      countFinal D = 0 →
      flushDisciplineFrom (MatEvent.assembleBlock 0 0 0 0 :: MatEvent.flush ::
          (D ++ [MatEvent.finalApply])) false = true
        ∧ countFinal (MatEvent.assembleBlock 0 0 0 0 :: MatEvent.flush ::
            (D ++ [MatEvent.finalApply])) = 1 := by
    intro D hD1 hD2 hD0
    obtain key := blockSegment_ok 0 0 0 0 D [MatEvent.finalApply] false
      hD1 hD2 rfl rfl
    refine ⟨key.1, ?_⟩
    have hcount := key.2.2
    rw [hD0] at hcount
    exact hcount
  refine ⟨?_, ?_, ?_, ?_, ?_, ?_⟩
  · unfold nestedAssemble
    rw [flushDisciplineFrom_append, hn1]
    simp [flushDisciplineFrom]
  · cases hs : blk.spacesEq with
    | true =>
        simp only [singleAssemble, hs, if_true]
        exact (hsingle (blk.bcdofs.map MatEvent.setDiag)
          (setDiag_map_ok blk.bcdofs).1 (setDiag_map_ok blk.bcdofs).2.1
          (setDiag_map_ok blk.bcdofs).2.2).1
    | false =>
        simp only [singleAssemble, hs, if_false]
        exact (hsingle [] rfl rfl rfl).1
  · rcases herr : (monoRowsLoop a 0 0).2 with _ | e
    · rw [monoAssemble_eq_none a herr]
      rw [flushDisciplineFrom_append, hm1]
      simp [flushDisciplineFrom]
    · rw [monoAssemble_eq_some a e herr]
      exact hm1
  · unfold nestedAssemble
    rw [countFinal_append, hn3]
    rfl
  · cases hs : blk.spacesEq with
    | true =>
        simp only [singleAssemble, hs, if_true]
        exact (hsingle (blk.bcdofs.map MatEvent.setDiag)
          (setDiag_map_ok blk.bcdofs).1 (setDiag_map_ok blk.bcdofs).2.1
          (setDiag_map_ok blk.bcdofs).2.2).2
    | false =>
        simp only [singleAssemble, hs, if_false]
        exact (hsingle [] rfl rfl rfl).2
  · intro herr2
    rcases herr : (monoRowsLoop a 0 0).2 with _ | e
    · rw [monoAssemble_eq_none a herr]
      rw [countFinal_append, hm3]
      rfl
    · rw [monoAssemble_eq_some a e herr] at herr2
      simp at herr2

/-- C9 witness: the amended theorem applied at the concrete all-non-null
array `aGhost` (its monolithic error component is `none`). -/
theorem claim_C9_witness :
    (monoAssemble aGhost).2 = none
      ∧ countFinal (monoAssemble aGhost).1 = 2
      ∧ countFinal (nestedAssemble aGhost).1 = 1 := by
  refine ⟨by decide, ?_, ?_⟩
  · exact (claim_C9 aGhost blkGhost).2.2.2.2.2 (by decide)
  · exact (claim_C9 aGhost blkGhost).2.2.2.1
